import Mathlib

/-!
Verification of the M3 protobuf delta encoder (`src/dbnode/encoding/proto/encoder.go`,
given as `src/unnamed/part_002`).

The encoder fuses two compression disciplines over a stream of schema-typed
messages: Gorilla/TSZ XOR compression for the floating-point fields and a
structural clone-diff-marshal pass for the remaining ("general") fields.

The shallow embedding below models:
  * the bit-level output stream (`encoding.OStream`) as a `List Bool`;
  * IEEE-754 values by their raw bit patterns (the codec never inspects
    float semantics beyond bit patterns);
  * `dynamic.Message` as a canonical association list from field number to
    value, with `GetFieldByNumber` returning the default value of the
    declared kind when the field is absent (proto3 semantics: a field
    explicitly holding its default is indistinguishable from an absent one);
  * the encoder functions of the source file definition by definition.

Repository code that the claims depend on but that is absent from the given
sources (`m3tsz.WriteXOR`, `fieldsEqual`, the protobuf marshal/unmarshal pair
and the decoding iterator) is modelled from the specification; each such
definition carries a doc comment starting with `Modelled from the spec:`.
-/

namespace M3Proto

/-! ## Bit-stream primitives

`encoding.OStream` is an append-only bit buffer: `WriteBit`, `WriteBits`
(most-significant bit first of the low `w` bits), `WriteBytes`.  We model the
stream contents as a `List Bool`.
-/

/-- The low `w` bits of `v`, most-significant first, as written by
`OStream.WriteBits(v, w)`. -/
def bitsOfNat : Nat → Nat → List Bool
  | _, 0 => []
  | v, w + 1 => decide (v / 2 ^ w % 2 = 1) :: bitsOfNat v w

/-- Read `w` bits (most-significant first) off the front of a bit stream. -/
def readBits : Nat → List Bool → Option (Nat × List Bool)
  | 0, bs => some (0, bs)
  | _ + 1, [] => none
  | w + 1, b :: bs =>
    (readBits w bs).map fun p => ((if b then 2 ^ w else 0) + p.1, p.2)

theorem bitsOfNat_length (v w : Nat) : (bitsOfNat v w).length = w := by
  induction w with
  | zero => rfl
  | succ w ih => simp [bitsOfNat, ih]

theorem readBits_append (w v : Nat) (rest : List Bool) :
    readBits w (bitsOfNat v w ++ rest) = some (v % 2 ^ w, rest) := by
  induction w with
  | zero => simp [bitsOfNat, readBits, Nat.mod_one]
  | succ w ih =>
    have hsplit : v % 2 ^ (w + 1) = 2 ^ w * (v / 2 ^ w % 2) + v % 2 ^ w := by
      conv_lhs => rw [show (2:Nat) ^ (w + 1) = 2 ^ w * 2 by ring]
      rw [Nat.mod_mul]
      ring
    have hstep : readBits (w + 1) (bitsOfNat v (w + 1) ++ rest) =
        (readBits w (bitsOfNat v w ++ rest)).map
          fun p => ((if decide (v / 2 ^ w % 2 = 1) then 2 ^ w else 0) + p.1, p.2) := rfl
    rw [hstep, ih]
    by_cases h : v / 2 ^ w % 2 = 1
    · simp [h, hsplit]
    · have h0 : v / 2 ^ w % 2 = 0 := by omega
      simp [h, hsplit, h0]

theorem readBits_exact (w v : Nat) (rest : List Bool) (h : v < 2 ^ w) :
    readBits w (bitsOfNat v w ++ rest) = some (v, rest) := by
  rw [readBits_append, Nat.mod_eq_of_lt h]

/-- A byte written into the stream appears as its 8 bits, MSB first. -/
def byteBits (b : Nat) : List Bool := bitsOfNat b 8

/-- `OStream.WriteBytes`: each byte in order, 8 bits each. -/
def bytesBits (l : List Nat) : List Bool := l.flatMap byteBits

theorem readBits_byte (b : Nat) (rest : List Bool) (h : b < 256) :
    readBits 8 (byteBits b ++ rest) = some (b, rest) :=
  readBits_exact 8 b rest (by simpa using h)

/-! ## Unsigned varints

`binary.PutUvarint`: little-endian base-128 with a continuation bit per
byte.  The Go implementation loops on the value; we use an explicit fuel so
the definition reduces by `rfl` (fuel 10 covers every 64-bit value).
-/

def uvarintF : Nat → Nat → List Nat
  | 0, _ => []
  | f + 1, x => if x < 128 then [x] else (x % 128 + 128) :: uvarintF f (x / 128)

/-- The byte encoding `binary.PutUvarint` produces for `x`. -/
def uvarint (x : Nat) : List Nat := uvarintF 10 x

/-- Read a uvarint from a bit stream (the encoder writes varints as whole
bytes into the bit stream, not necessarily byte-aligned). -/
def readUvarintBits : Nat → List Bool → Option (Nat × List Bool)
  | 0, _ => none
  | f + 1, bs =>
    match readBits 8 bs with
    | none => none
    | some (b, rest) =>
      if b < 128 then some (b, rest)
      else
        match readUvarintBits f rest with
        | none => none
        | some (v, rest') => some (b % 128 + 128 * v, rest')

/-- Read a uvarint from a byte list (used by the modelled unmarshaller). -/
def readUvarintBytes : Nat → List Nat → Option (Nat × List Nat)
  | 0, _ => none
  | _ + 1, [] => none
  | f + 1, b :: rest =>
    if b < 128 then some (b, rest)
    else
      match readUvarintBytes f rest with
      | none => none
      | some (v, rest') => some (b % 128 + 128 * v, rest')

theorem uvarint_bytes_lt (x : Nat) : ∀ b ∈ uvarint x, b < 256 := by
  suffices h : ∀ f x, ∀ b ∈ uvarintF f x, b < 256 by exact h 10 x
  intro f
  induction f with
  | zero => intro x b hb; simp [uvarintF] at hb
  | succ f ih =>
    intro x b hb
    simp only [uvarintF] at hb
    by_cases h : x < 128
    · simp [h] at hb; omega
    · simp only [h, if_false, List.mem_cons] at hb
      rcases hb with hb | hb
      · omega
      · exact ih _ b hb

theorem readUvarintBits_append (f x : Nat) (rest : List Bool)
    (hf : 0 < f) (hx : x < 128 ^ f) :
    readUvarintBits f (bytesBits (uvarintF f x) ++ rest) = some (x, rest) := by
  induction f generalizing x with
  | zero => omega
  | succ f ih =>
    by_cases h : x < 128
    · simp only [uvarintF, h, if_true, bytesBits, List.flatMap_cons, List.flatMap_nil,
        List.append_nil, readUvarintBits]
      rw [readBits_byte x rest (by omega)]
      simp [h]
    · simp only [uvarintF, h, if_false, bytesBits, List.flatMap_cons, readUvarintBits,
        List.append_assoc]
      rw [readBits_byte (x % 128 + 128) _ (by omega)]
      have hb : ¬ (x % 128 + 128 < 128) := by omega
      simp only [hb, if_false]
      have hdiv : x / 128 < 128 ^ f := by
        have hp : 128 ^ (f + 1) = 128 * 128 ^ f := by ring
        rw [hp] at hx
        omega
      have hfpos : 0 < f := by
        rcases Nat.eq_zero_or_pos f with hf0 | hf0
        · subst hf0; simp at hdiv; omega
        · exact hf0
      rw [← bytesBits, ih (x / 128) hfpos hdiv]
      simp only
      refine congrArg some (Prod.ext ?_ rfl)
      simp only
      omega

theorem readUvarintBits_uvarint (x : Nat) (rest : List Bool) (hx : x < 2 ^ 64) :
    readUvarintBits 10 (bytesBits (uvarint x) ++ rest) = some (x, rest) :=
  readUvarintBits_append 10 x rest (by omega) (by calc
    x < 2 ^ 64 := hx
    _ ≤ 128 ^ 10 := by norm_num)

theorem readUvarintBytes_append (f x : Nat) (rest : List Nat)
    (hf : 0 < f) (hx : x < 128 ^ f) :
    readUvarintBytes f (uvarintF f x ++ rest) = some (x, rest) := by
  induction f generalizing x with
  | zero => omega
  | succ f ih =>
    by_cases h : x < 128
    · simp [uvarintF, h, readUvarintBytes]
    · simp only [uvarintF, h, if_false, List.cons_append, readUvarintBytes]
      have hb : ¬ (x % 128 + 128 < 128) := by omega
      simp only [hb, if_false]
      have hdiv : x / 128 < 128 ^ f := by
        have hp : 128 ^ (f + 1) = 128 * 128 ^ f := by ring
        rw [hp] at hx
        omega
      have hfpos : 0 < f := by
        rcases Nat.eq_zero_or_pos f with hf0 | hf0
        · subst hf0; simp at hdiv; omega
        · exact hf0
      rw [ih (x / 128) hfpos hdiv]
      refine congrArg some (Prod.ext ?_ rfl)
      simp only
      omega

theorem readUvarintBytes_uvarint (x : Nat) (rest : List Nat) (hx : x < 2 ^ 64) :
    readUvarintBytes 10 (uvarint x ++ rest) = some (x, rest) :=
  readUvarintBytes_append 10 x rest (by omega) (by calc
    x < 2 ^ 64 := hx
    _ ≤ 128 ^ 10 := by norm_num)

/-! ## Leading/trailing zero counts

`math/bits`-style operations on 64-bit patterns, written with explicit fuel
so they reduce by `rfl`. -/

/-- Fuelled base-2 logarithm; agrees with `Nat.log2` for `x < 2 ^ f`. -/
def log2F : Nat → Nat → Nat
  | _, 0 => 0
  | x, f + 1 => if 2 ≤ x then log2F (x / 2) f + 1 else 0

theorem log2F_eq (f x : Nat) (hx : x < 2 ^ f) : log2F x f = Nat.log2 x := by
  induction f generalizing x with
  | zero =>
    interval_cases x
    simp [log2F, Nat.log2_zero]
  | succ f ih =>
    rw [Nat.log2]
    by_cases h : 2 ≤ x
    · simp only [log2F, h, if_true, ge_iff_le]
      rw [ih (x / 2) (by
        have hp : 2 ^ (f + 1) = 2 * 2 ^ f := by ring
        rw [hp] at hx
        omega)]
    · simp [log2F, h]

/-- `bits.LeadingZeros64` on a nonzero pattern (callers guard zero). -/
def clz64 (x : Nat) : Nat := 63 - log2F x 64

/-- Fuelled count of trailing zero bits (callers guard zero). -/
def ctzF : Nat → Nat → Nat
  | _, 0 => 0
  | x, f + 1 => if x % 2 = 1 then 0 else ctzF (x / 2) f + 1

def ctz64 (x : Nat) : Nat := ctzF x 64

/-- `m3tsz.LeadingAndTrailingZeros`: both zero counts, with the `(64, 0)`
convention for a zero pattern. -/
def leadingAndTrailingZeros (x : Nat) : Nat × Nat :=
  if x = 0 then (64, 0) else (clz64 x, ctz64 x)

theorem ctzF_dvd (f x : Nat) (hx : x ≠ 0) : 2 ^ ctzF x f ∣ x := by
  induction f generalizing x with
  | zero => simp [ctzF]
  | succ f ih =>
    by_cases h : x % 2 = 1
    · simp [ctzF, h]
    · simp only [ctzF, h, if_false]
      have hx2 : x / 2 ≠ 0 := by omega
      obtain ⟨c, hc⟩ := ih (x / 2) hx2
      set k := ctzF (x / 2) f with hk
      refine ⟨c, ?_⟩
      rw [pow_succ]
      calc x = 2 * (x / 2) := by omega
      _ = 2 * (2 ^ k * c) := by rw [hc]
      _ = 2 ^ k * 2 * c := by ring

theorem ctz64_dvd (x : Nat) (hx : x ≠ 0) : 2 ^ ctz64 x ∣ x := ctzF_dvd 64 x hx

theorem ctz64_le_log2 (x : Nat) (hx : x ≠ 0) : ctz64 x ≤ Nat.log2 x := by
  have hd := ctz64_dvd x hx
  have hle : 2 ^ ctz64 x ≤ x := Nat.le_of_dvd (Nat.pos_of_ne_zero hx) hd
  exact (Nat.le_log2 hx).mpr hle

theorem clz64_spec (x : Nat) (hx : x ≠ 0) (hb : x < 2 ^ 64) :
    clz64 x = 63 - Nat.log2 x ∧ Nat.log2 x ≤ 63 := by
  have hlog : Nat.log2 x ≤ 63 := by
    have := (Nat.log2_lt hx).mpr hb
    omega
  exact ⟨by rw [clz64, log2F_eq 64 x hb], hlog⟩

theorem lt_two_pow_log2 (x : Nat) (hx : x ≠ 0) (hb : x < 2 ^ 64) :
    x < 2 ^ (64 - clz64 x) := by
  obtain ⟨hc, hlog⟩ := clz64_spec x hx hb
  have h1 : 64 - clz64 x = Nat.log2 x + 1 := by omega
  rw [h1]
  exact Nat.lt_log2_self

theorem two_pow_log2_le (x : Nat) (hx : x ≠ 0) (hb : x < 2 ^ 64) :
    2 ^ (63 - clz64 x) ≤ x := by
  obtain ⟨hc, hlog⟩ := clz64_spec x hx hb
  have h1 : 63 - clz64 x = Nat.log2 x := by omega
  rw [h1]
  exact Nat.log2_self_le hx

theorem clz_add_ctz_le (x : Nat) (hx : x ≠ 0) (hb : x < 2 ^ 64) :
    clz64 x + ctz64 x ≤ 63 := by
  obtain ⟨hc, hlog⟩ := clz64_spec x hx hb
  have := ctz64_le_log2 x hx
  omega

/-! ## Gorilla XOR block coding

`m3tsz.WriteXOR` is repository code that is not among the given sources.

Modelled from the spec: §4.3 — a zero XOR is a single `0` control bit;
otherwise a `1` bit, then either a `0` continuation bit and the significant
middle bits at the previous window's width (when the new leading/trailing
window falls inside the previous one) or a `1` bit, the leading-zero count in
5 bits, the significant-bit count in 6 bits, and the middle bits.  To make
the 5/6-bit headers total we adopt the standard Gorilla conventions the spec
leaves implicit: the stored leading count is capped at 31 (extra leading
zeros migrate into the middle bits), and a significant-bit count of 64 is
stored as 0 (a count of 0 cannot occur for a nonzero XOR). -/
def writeXOR (prevXOR curXOR : Nat) : List Bool :=
  if curXOR = 0 then [false]
  else
    let pL := (leadingAndTrailingZeros prevXOR).1
    let pT := (leadingAndTrailingZeros prevXOR).2
    let cL := (leadingAndTrailingZeros curXOR).1
    let cT := (leadingAndTrailingZeros curXOR).2
    if pL ≤ cL ∧ pT ≤ cT then
      true :: false :: bitsOfNat (curXOR / 2 ^ pT) (64 - pL - pT)
    else
      let l := min cL 31
      let sig := 64 - l - cT
      true :: true :: (bitsOfNat l 5 ++ bitsOfNat (sig % 64) 6 ++
        bitsOfNat (curXOR / 2 ^ cT) sig)

/-- Modelled from the spec: §4.3/§4.4 decode — the exact inverse of
`writeXOR`, driven by the decoder's own copy of the previous XOR. -/
def readXOR (prevXOR : Nat) (bs : List Bool) : Option (Nat × List Bool) :=
  match bs with
  | [] => none
  | false :: rest => some (0, rest)
  | true :: rest =>
    match rest with
    | [] => none
    | false :: rest2 =>
      let pL := (leadingAndTrailingZeros prevXOR).1
      let pT := (leadingAndTrailingZeros prevXOR).2
      match readBits (64 - pL - pT) rest2 with
      | none => none
      | some (v, r) => some (v * 2 ^ pT, r)
    | true :: rest2 =>
      match readBits 5 rest2 with
      | none => none
      | some (l, r1) =>
        match readBits 6 r1 with
        | none => none
        | some (sigRaw, r2) =>
          let sig := if sigRaw = 0 then 64 else sigRaw
          match readBits sig r2 with
          | none => none
          | some (v, r3) => some (v * 2 ^ (64 - l - sig), r3)

theorem readXOR_true_false (prevXOR : Nat) (bs : List Bool) :
    readXOR prevXOR (true :: false :: bs) =
      match readBits (64 - (leadingAndTrailingZeros prevXOR).1 -
          (leadingAndTrailingZeros prevXOR).2) bs with
      | none => none
      | some (v, r) => some (v * 2 ^ (leadingAndTrailingZeros prevXOR).2, r) := rfl

theorem readXOR_true_true (prevXOR : Nat) (bs : List Bool) :
    readXOR prevXOR (true :: true :: bs) =
      match readBits 5 bs with
      | none => none
      | some (l, r1) =>
        match readBits 6 r1 with
        | none => none
        | some (sigRaw, r2) =>
          match readBits (if sigRaw = 0 then 64 else sigRaw) r2 with
          | none => none
          | some (v, r3) =>
            some (v * 2 ^ (64 - l - (if sigRaw = 0 then 64 else sigRaw)), r3) := rfl

theorem writeXOR_nonzero (prevXOR curXOR : Nat) (hz : curXOR ≠ 0) :
    writeXOR prevXOR curXOR =
      if (leadingAndTrailingZeros prevXOR).1 ≤ (leadingAndTrailingZeros curXOR).1 ∧
          (leadingAndTrailingZeros prevXOR).2 ≤ (leadingAndTrailingZeros curXOR).2 then
        true :: false :: bitsOfNat (curXOR / 2 ^ (leadingAndTrailingZeros prevXOR).2)
          (64 - (leadingAndTrailingZeros prevXOR).1 - (leadingAndTrailingZeros prevXOR).2)
      else
        true :: true :: (bitsOfNat (min (leadingAndTrailingZeros curXOR).1 31) 5 ++
          bitsOfNat ((64 - min (leadingAndTrailingZeros curXOR).1 31 -
            (leadingAndTrailingZeros curXOR).2) % 64) 6 ++
          bitsOfNat (curXOR / 2 ^ (leadingAndTrailingZeros curXOR).2)
            (64 - min (leadingAndTrailingZeros curXOR).1 31 -
              (leadingAndTrailingZeros curXOR).2)) := by
  simp only [writeXOR, hz, if_false]

theorem readXOR_writeXOR (prevXOR curXOR : Nat) (rest : List Bool)
    (hcur : curXOR < 2 ^ 64) :
    readXOR prevXOR (writeXOR prevXOR curXOR ++ rest) = some (curXOR, rest) := by
  by_cases hz : curXOR = 0
  · simp [writeXOR, readXOR, hz]
  · rw [writeXOR_nonzero prevXOR curXOR hz]
    have hcLT : leadingAndTrailingZeros curXOR = (clz64 curXOR, ctz64 curXOR) := by
      simp [leadingAndTrailingZeros, hz]
    have hwin := clz_add_ctz_le curXOR hz hcur
    have hub : curXOR < 2 ^ (64 - clz64 curXOR) := lt_two_pow_log2 curXOR hz hcur
    have hdvd : 2 ^ ctz64 curXOR ∣ curXOR := ctz64_dvd curXOR hz
    by_cases hcont : (leadingAndTrailingZeros prevXOR).1 ≤
        (leadingAndTrailingZeros curXOR).1 ∧
        (leadingAndTrailingZeros prevXOR).2 ≤ (leadingAndTrailingZeros curXOR).2
    · -- contained window: reuse the previous window's width
      rw [if_pos hcont]
      obtain ⟨hcont1, hcont2⟩ := hcont
      rw [hcLT] at hcont1 hcont2
      simp only at hcont1 hcont2
      have hfit : curXOR / 2 ^ (leadingAndTrailingZeros prevXOR).2 <
          2 ^ (64 - (leadingAndTrailingZeros prevXOR).1 -
            (leadingAndTrailingZeros prevXOR).2) := by
        rw [Nat.div_lt_iff_lt_mul (Nat.pos_pow_of_pos _ (by omega))]
        calc curXOR < 2 ^ (64 - clz64 curXOR) := hub
        _ ≤ 2 ^ (64 - (leadingAndTrailingZeros prevXOR).1 -
              (leadingAndTrailingZeros prevXOR).2) *
            2 ^ (leadingAndTrailingZeros prevXOR).2 := by
            rw [← pow_add]
            refine Nat.pow_le_pow_right (by omega) ?_
            omega
      rw [List.cons_append, List.cons_append, readXOR_true_false,
        readBits_exact _ _ _ hfit]
      refine congrArg some (Prod.ext ?_ rfl)
      simp only
      have hdvd' : 2 ^ (leadingAndTrailingZeros prevXOR).2 ∣ curXOR := dvd_trans
        (pow_dvd_pow 2 (by omega : (leadingAndTrailingZeros prevXOR).2 ≤ ctz64 curXOR))
        hdvd
      exact Nat.div_mul_cancel hdvd'
    · -- new window: 5-bit capped leading count, 6-bit significant count
      rw [if_neg hcont, hcLT]
      simp only
      have hl31 : min (clz64 curXOR) 31 ≤ 31 := Nat.min_le_right _ _
      have hlcL : min (clz64 curXOR) 31 ≤ clz64 curXOR := Nat.min_le_left _ _
      have hsig_pos : 1 ≤ 64 - min (clz64 curXOR) 31 - ctz64 curXOR := by omega
      have hsig_le : 64 - min (clz64 curXOR) 31 - ctz64 curXOR ≤ 64 := by omega
      have hfit : curXOR / 2 ^ ctz64 curXOR <
          2 ^ (64 - min (clz64 curXOR) 31 - ctz64 curXOR) := by
        rw [Nat.div_lt_iff_lt_mul (Nat.pos_pow_of_pos _ (by omega))]
        calc curXOR < 2 ^ (64 - clz64 curXOR) := hub
        _ ≤ 2 ^ (64 - min (clz64 curXOR) 31 - ctz64 curXOR) * 2 ^ ctz64 curXOR := by
            rw [← pow_add]
            refine Nat.pow_le_pow_right (by omega) ?_
            omega
      rw [List.cons_append, List.cons_append, readXOR_true_true, List.append_assoc,
        List.append_assoc, readBits_exact 5 _ _ (by
          calc min (clz64 curXOR) 31 ≤ 31 := hl31
          _ < 2 ^ 5 := by norm_num)]
      simp only
      rw [readBits_exact 6 _ _ (by
        have hm : (64 - min (clz64 curXOR) 31 - ctz64 curXOR) % 64 < 64 :=
          Nat.mod_lt _ (by omega)
        calc (64 - min (clz64 curXOR) 31 - ctz64 curXOR) % 64 < 64 := hm
        _ = 2 ^ 6 := by norm_num)]
      simp only
      have hsigRaw : (if (64 - min (clz64 curXOR) 31 - ctz64 curXOR) % 64 = 0
          then 64 else (64 - min (clz64 curXOR) 31 - ctz64 curXOR) % 64) =
          64 - min (clz64 curXOR) 31 - ctz64 curXOR := by
        by_cases h64 : 64 - min (clz64 curXOR) 31 - ctz64 curXOR = 64
        · rw [h64]
          norm_num
        · have hlt : (64 - min (clz64 curXOR) 31 - ctz64 curXOR) % 64 =
              64 - min (clz64 curXOR) 31 - ctz64 curXOR :=
            Nat.mod_eq_of_lt (by omega)
          rw [hlt, if_neg (by omega)]
      rw [hsigRaw, readBits_exact _ _ _ hfit]
      refine congrArg some (Prod.ext ?_ rfl)
      simp only
      have ht : 64 - min (clz64 curXOR) 31 -
          (64 - min (clz64 curXOR) 31 - ctz64 curXOR) = ctz64 curXOR := by omega
      rw [ht]
      exact Nat.div_mul_cancel hdvd

/-! ## Exact float32 ↔ float64 bit conversion

The encoder widens `float32` values to `float64` (`float64(iVal.(float32))`)
before XOR compression; the decoder narrows back.  Modelled at the bit level:
IEEE-754 binary32 → binary64 conversion is exact, and a NaN payload travels
in the top fraction bits (shifted by 29). -/

/-- The 64-bit pattern of `float64(v)` for a 32-bit pattern `b` of `v`
(sign `b₃₁`, exponent `b₃₀..₂₃`, fraction `b₂₂..₀`). -/
def f32WidenBits (b : Nat) : Nat :=
  let s := b / 2 ^ 31 % 2
  let e := b / 2 ^ 23 % 2 ^ 8
  let f := b % 2 ^ 23
  if e = 255 then s * 2 ^ 63 + 2047 * 2 ^ 52 + f * 2 ^ 29
  else if e = 0 then
    if f = 0 then s * 2 ^ 63
    else
      let t := log2F f 64
      s * 2 ^ 63 + (t + 874) * 2 ^ 52 + (f - 2 ^ t) * 2 ^ (52 - t)
  else s * 2 ^ 63 + (e + 896) * 2 ^ 52 + f * 2 ^ 29

/-- Modelled from the spec: §4.2/§9 — decode narrows the reconstructed 64-bit
pattern back to 32 bits, exactly inverting the widening. -/
def f32NarrowBits (b : Nat) : Nat :=
  let s := b / 2 ^ 63 % 2
  let e := b / 2 ^ 52 % 2 ^ 11
  let f := b % 2 ^ 52
  if e = 2047 then s * 2 ^ 31 + 255 * 2 ^ 23 + f / 2 ^ 29
  else if e = 0 then s * 2 ^ 31
  else if 897 ≤ e then s * 2 ^ 31 + (e - 896) * 2 ^ 23 + f / 2 ^ 29
  else s * 2 ^ 31 + 2 ^ (e - 874) + (f / 2 ^ (52 - (e - 874)))

theorem f32WidenBits_lt (b : Nat) : f32WidenBits b < 2 ^ 64 := by
  unfold f32WidenBits
  have hs : b / 2 ^ 31 % 2 < 2 := Nat.mod_lt _ (by norm_num)
  have he : b / 2 ^ 23 % 2 ^ 8 < 2 ^ 8 := Nat.mod_lt _ (by norm_num)
  have hf : b % 2 ^ 23 < 2 ^ 23 := Nat.mod_lt _ (by norm_num)
  set s := b / 2 ^ 31 % 2
  set e := b / 2 ^ 23 % 2 ^ 8
  set f := b % 2 ^ 23
  by_cases h255 : e = 255
  · simp only [h255, if_true]
    have : f * 2 ^ 29 < 2 ^ 52 := by
      calc f * 2 ^ 29 < 2 ^ 23 * 2 ^ 29 := by
            exact (Nat.mul_lt_mul_right (by norm_num)).mpr hf
      _ = 2 ^ 52 := by norm_num
    omega
  · simp only [h255, if_false]
    by_cases he0 : e = 0
    · simp only [he0, if_true]
      by_cases hf0 : f = 0
      · simp only [hf0, if_true]
        omega
      · simp only [hf0, if_false]
        have ht : log2F f 64 = Nat.log2 f := log2F_eq 64 f (by
          calc f < 2 ^ 23 := hf
          _ ≤ 2 ^ 64 := by norm_num)
        set t := log2F f 64 with htdef
        have htlt : t < 23 := by
          rw [ht]
          have := (Nat.log2_lt hf0).mpr hf
          omega
        have h2t : 2 ^ t ≤ f := by
          rw [ht]
          exact Nat.log2_self_le hf0
        have hflt : f < 2 ^ (t + 1) := by
          rw [ht]
          exact Nat.lt_log2_self
        have hfrac : (f - 2 ^ t) * 2 ^ (52 - t) < 2 ^ 52 := by
          calc (f - 2 ^ t) * 2 ^ (52 - t) < 2 ^ t * 2 ^ (52 - t) := by
                refine (Nat.mul_lt_mul_right (by positivity)).mpr ?_
                have : f < 2 ^ t + 2 ^ t := by
                  have h1 : 2 ^ (t + 1) = 2 ^ t + 2 ^ t := by ring
                  omega
                omega
          _ = 2 ^ 52 := by
                rw [← pow_add]
                congr 1
                omega
        have hexp : (t + 874) * 2 ^ 52 ≤ 896 * 2 ^ 52 := by
          refine Nat.mul_le_mul_right _ ?_
          omega
        omega
    · simp only [he0, if_false]
      have : f * 2 ^ 29 < 2 ^ 52 := by
        calc f * 2 ^ 29 < 2 ^ 23 * 2 ^ 29 := (Nat.mul_lt_mul_right (by norm_num)).mpr hf
        _ = 2 ^ 52 := by norm_num
      have : (e + 896) * 2 ^ 52 ≤ 1150 * 2 ^ 52 := by
        refine Nat.mul_le_mul_right _ ?_
        omega
      omega


theorem f32NarrowBits_decomp (s e f : Nat) (hs : s < 2) (he : e < 2048)
    (hf : f < 2 ^ 52) :
    f32NarrowBits (s * 2 ^ 63 + e * 2 ^ 52 + f) =
      if e = 2047 then s * 2 ^ 31 + 255 * 2 ^ 23 + f / 2 ^ 29
      else if e = 0 then s * 2 ^ 31
      else if 897 ≤ e then s * 2 ^ 31 + (e - 896) * 2 ^ 23 + f / 2 ^ 29
      else s * 2 ^ 31 + 2 ^ (e - 874) + f / 2 ^ (52 - (e - 874)) := by
  have h1 : (s * 2 ^ 63 + e * 2 ^ 52 + f) / 2 ^ 63 % 2 = s := by omega
  have h2 : (s * 2 ^ 63 + e * 2 ^ 52 + f) / 2 ^ 52 % 2 ^ 11 = e := by omega
  have h3 : (s * 2 ^ 63 + e * 2 ^ 52 + f) % 2 ^ 52 = f := by omega
  simp only [f32NarrowBits, h1, h2, h3]

theorem f32NarrowBits_widen (b : Nat) (hb : b < 2 ^ 32) :
    f32NarrowBits (f32WidenBits b) = b := by
  obtain ⟨s, e, f, hs, he, hf, hdecomp, hw⟩ :
      ∃ s e f, s < 2 ∧ e < 256 ∧ f < 2 ^ 23 ∧ b = s * 2 ^ 31 + e * 2 ^ 23 + f ∧
        f32WidenBits b =
          (if e = 255 then s * 2 ^ 63 + 2047 * 2 ^ 52 + f * 2 ^ 29
           else if e = 0 then
             (if f = 0 then s * 2 ^ 63
              else s * 2 ^ 63 + (log2F f 64 + 874) * 2 ^ 52 +
                (f - 2 ^ log2F f 64) * 2 ^ (52 - log2F f 64))
           else s * 2 ^ 63 + (e + 896) * 2 ^ 52 + f * 2 ^ 29) := by
    refine ⟨b / 2 ^ 31 % 2, b / 2 ^ 23 % 2 ^ 8, b % 2 ^ 23,
      Nat.mod_lt _ (by norm_num), Nat.mod_lt _ (by norm_num),
      Nat.mod_lt _ (by norm_num), ?_, rfl⟩
    have h1 : b / 2 ^ 31 % 2 = b / 2 ^ 31 := by
      rw [Nat.mod_eq_of_lt]
      omega
    omega
  rw [hw]
  have hf29 : f * 2 ^ 29 < 2 ^ 52 := by
    calc f * 2 ^ 29 < 2 ^ 23 * 2 ^ 29 := (Nat.mul_lt_mul_right (by norm_num)).mpr hf
    _ = 2 ^ 52 := by norm_num
  have hdiv29 : f * 2 ^ 29 / 2 ^ 29 = f := Nat.mul_div_cancel _ (by norm_num)
  by_cases h255 : e = 255
  · rw [if_pos h255, f32NarrowBits_decomp s 2047 (f * 2 ^ 29) hs (by norm_num) hf29,
      if_pos rfl, hdiv29]
    omega
  · rw [if_neg h255]
    by_cases he0 : e = 0
    · rw [if_pos he0]
      by_cases hf0 : f = 0
      · have hz : s * 2 ^ 63 = s * 2 ^ 63 + 0 * 2 ^ 52 + 0 := by ring
        rw [if_pos hf0, hz, f32NarrowBits_decomp s 0 0 hs (by norm_num) (by norm_num),
          if_neg (by norm_num), if_pos rfl]
        omega
      · rw [if_neg hf0]
        have ht : log2F f 64 = Nat.log2 f := log2F_eq 64 f (by
          calc f < 2 ^ 23 := hf
          _ ≤ 2 ^ 64 := by norm_num)
        set t := log2F f 64 with htdef
        have htlt : t < 23 := by
          rw [ht]
          have := (Nat.log2_lt hf0).mpr hf
          omega
        have h2t : 2 ^ t ≤ f := by
          rw [ht]
          exact Nat.log2_self_le hf0
        have hflt : f < 2 ^ (t + 1) := by
          rw [ht]
          exact Nat.lt_log2_self
        have hfsub : f - 2 ^ t < 2 ^ t := by
          have h1 : 2 ^ (t + 1) = 2 ^ t + 2 ^ t := by ring
          omega
        have hfrac : (f - 2 ^ t) * 2 ^ (52 - t) < 2 ^ 52 := by
          calc (f - 2 ^ t) * 2 ^ (52 - t) < 2 ^ t * 2 ^ (52 - t) :=
                (Nat.mul_lt_mul_right (by positivity)).mpr hfsub
          _ = 2 ^ 52 := by
                rw [← pow_add]
                congr 1
                omega
        rw [f32NarrowBits_decomp s (t + 874) ((f - 2 ^ t) * 2 ^ (52 - t)) hs
          (by omega) hfrac, if_neg (by omega), if_neg (by omega), if_neg (by omega)]
        have hsub : t + 874 - 874 = t := by omega
        rw [hsub]
        have hdiv : (f - 2 ^ t) * 2 ^ (52 - t) / 2 ^ (52 - t) = f - 2 ^ t :=
          Nat.mul_div_cancel _ (by positivity)
        rw [hdiv]
        omega
    · rw [if_neg he0, f32NarrowBits_decomp s (e + 896) (f * 2 ^ 29) hs (by omega) hf29,
        if_neg (by omega), if_neg (by omega), if_pos (by omega)]
      have hsub : e + 896 - 896 = e := by omega
      rw [hsub, hdiv29]
      omega

theorem f32WidenBits_zero : f32WidenBits 0 = 0 := by
  unfold f32WidenBits
  norm_num

theorem f32WidenBits_eq_zero_iff (b : Nat) (hb : b < 2 ^ 32) :
    f32WidenBits b = 0 ↔ b = 0 := by
  constructor
  · intro h
    have := f32NarrowBits_widen b hb
    rw [h] at this
    rw [← this]
    unfold f32NarrowBits
    norm_num
  · intro h
    rw [h]
    exact f32WidenBits_zero

/-! ## Schema, values, messages

The schema (`desc.MessageDescriptor`) is an ordered list of field
descriptors; field kinds are partitioned into the two float kinds
(`TYPE_DOUBLE`, `TYPE_FLOAT`) and everything else.  A `dynamic.Message` is a
canonical (strictly number-sorted, default-free) association list;
`GetFieldByNumber` yields the declared kind's default for an absent field. -/

inductive Kind
  | double
  | float
  | other
deriving DecidableEq

structure FieldDesc where
  number : Nat
  kind : Kind
deriving DecidableEq

abbrev Schema := List FieldDesc

inductive Value
  | double (bits : Nat)
  | float (bits : Nat)
  | other (data : Nat)
deriving DecidableEq

def defaultValue : Kind → Value
  | .double => .double 0
  | .float => .float 0
  | .other => .other 0

/-- A runtime value is well-typed for a declared kind, with the float bit
patterns bounded by their width and opaque scalars modelled as 64-bit. -/
def valueOk : Kind → Value → Bool
  | .double, .double b => b < 2 ^ 64
  | .float, .float b => b < 2 ^ 32
  | .other, .other d => d < 2 ^ 64
  | _, _ => false

abbrev Message := List (Nat × Value)

def lookupField : Message → Nat → Option Value
  | [], _ => none
  | (k, v) :: rest, n => if k = n then some v else lookupField rest n

def findField (sch : Schema) (n : Nat) : Option FieldDesc :=
  sch.find? fun fd => fd.number = n

/-- `dynamic.Message.GetFieldByNumber`: the stored value, or the declared
kind's default when absent (only ever used at schema-declared numbers). -/
def getFieldByNumber (sch : Schema) (m : Message) (n : Nat) : Value :=
  match findField sch n with
  | none => .other 0
  | some fd => (lookupField m n).getD (defaultValue fd.kind)

/-- `dynamic.Message.TryGetFieldByNumber`: errors exactly when the field
number is not declared by the schema (an absent value yields the default). -/
def tryGetFieldByNumber (sch : Schema) (m : Message) (n : Nat) :
    Except String Value :=
  match findField sch n with
  | none => .error "unknown field"
  | some fd => .ok ((lookupField m n).getD (defaultValue fd.kind))

/-- `dynamic.Message.ClearFieldByNumber`. -/
def clearFieldByNumber (m : Message) (n : Nat) : Message :=
  m.filter fun e => decide (e.1 ≠ n)

/-- Number-sorted insert (replacing an existing entry). -/
def insertField : Message → Nat → Value → Message
  | [], n, v => [(n, v)]
  | (k, w) :: rest, n, v =>
    if n < k then (n, v) :: (k, w) :: rest
    else if n = k then (n, v) :: rest
    else (k, w) :: insertField rest n v

/-- Canonical field update: storing a kind's default value clears the field
(proto3 scalar-presence semantics). -/
def setFieldCanon (kind : Kind) (m : Message) (n : Nat) (v : Value) : Message :=
  if v = defaultValue kind then clearFieldByNumber m n else insertField m n v

/-- Entries strictly ascending by field number (canonical form). -/
def OrderedMsg (m : Message) : Prop := List.Pairwise (fun a b => a.1 < b.1) m

/-- Schema sanity: distinct field numbers within the protobuf limit. -/
def wfSchema (sch : Schema) : Prop :=
  (sch.map FieldDesc.number).Nodup ∧ ∀ fd ∈ sch, fd.number < 2 ^ 29

/-- Well-typed canonical message for a schema: sorted, default-free entries,
every entry declared with a matching kind. -/
def wellTyped (sch : Schema) (m : Message) : Prop :=
  OrderedMsg m ∧
  ∀ e ∈ m, ∃ fd ∈ sch, fd.number = e.1 ∧ valueOk fd.kind e.2 = true ∧
    e.2 ≠ defaultValue fd.kind

/-! ## The structured-value codec

Modelled from the spec: §6 — `marshal(partialMessage) -> bytes` /
`unmarshal(bytes, schema) -> partialMessage`, an external self-describing
wire form the encoder treats as opaque.  Each present field is serialized as
the varint field number followed by the varint value payload. -/

def marshalValue : Value → List Nat
  | .double b => uvarint b
  | .float b => uvarint b
  | .other d => uvarint d

/-- Modelled from the spec: §6 structured-value codec `marshal`. -/
def marshal (m : Message) : List Nat :=
  m.flatMap fun e => uvarint e.1 ++ marshalValue e.2

/-- A raw wire payload reinterpreted at a declared kind. -/
def valueOfKind : Kind → Nat → Value
  | .double, x => .double x
  | .float, x => .float x
  | .other, x => .other x

/-- Modelled from the spec: §6 structured-value codec `unmarshal` (fuelled
parse loop; the fuel strictly exceeds the field count). -/
def unmarshalF : Nat → Schema → List Nat → Option Message
  | 0, _, _ => none
  | _ + 1, _, [] => some []
  | f + 1, sch, b :: bs =>
    (readUvarintBytes 10 (b :: bs)).bind fun p =>
      (findField sch p.1).bind fun fd =>
        (readUvarintBytes 10 p.2).bind fun q =>
          (unmarshalF f sch q.2).map fun rest =>
            (p.1, valueOfKind fd.kind q.1) :: rest

def unmarshal (sch : Schema) (bytes : List Nat) : Option Message :=
  unmarshalF (bytes.length + 1) sch bytes

/-! ## Encoder state and operations (from `encoder.go`) -/

structure TszFieldState where
  fieldNum : Nat
  prevXOR : Nat
  prevFloatBits : Nat
deriving DecidableEq

structure EncoderState where
  stream : List Bool
  schema : Schema
  hasWrittenFirstTSZ : Bool
  lastEncoded : Option Message
  tszFields : List TszFieldState
deriving DecidableEq

/-- `tszFields(nil, schema)`: one zeroed state per `TYPE_DOUBLE`/`TYPE_FLOAT`
field, in schema order. -/
def tszFieldsOf (sch : Schema) : List TszFieldState :=
  (sch.filter fun fd => fd.kind = .double ∨ fd.kind = .float).map
    fun fd => ⟨fd.number, 0, 0⟩

/-- `NewEncoder`. -/
def initEncoder (sch : Schema) : EncoderState :=
  { stream := []
    schema := sch
    hasWrittenFirstTSZ := false
    lastEncoded := none
    tszFields := tszFieldsOf sch }

/-- `encoder.writeVarInt` (bytes of the uvarint, appended to the bit
stream). -/
def writeVarIntBits (x : Nat) : List Bool := bytesBits (uvarint x)

/-- `encoder.writeBitset`: varint of `max+1` then one bit per position. -/
def writeBitset (values : List Nat) : List Bool :=
  let max := values.foldl (fun m v => if v > m then v else m) 0
  writeVarIntBits (max + 1) ++
    (List.range (max + 1)).map fun i => values.contains i

/-- `encoder.writeFirstTSZValue`: the raw 64-bit pattern, then
`prevFloatBits` and `prevXOR` both become that pattern. -/
def writeFirstTSZValue (es : EncoderState) (i : Nat) (fb : Nat) : EncoderState :=
  let st := es.tszFields.getD i ⟨0, 0, 0⟩
  { es with
    stream := es.stream ++ bitsOfNat fb 64
    tszFields := es.tszFields.set i ⟨st.fieldNum, fb, fb⟩ }

/-- `encoder.writeNextTSZValue`: XOR against `prevFloatBits`, delegated to
`m3tsz.WriteXOR`, then the state advances. -/
def writeNextTSZValue (es : EncoderState) (i : Nat) (curFloatBits : Nat) :
    EncoderState :=
  let st := es.tszFields.getD i ⟨0, 0, 0⟩
  let curXOR := st.prevFloatBits ^^^ curFloatBits
  { es with
    stream := es.stream ++ writeXOR st.prevXOR curXOR
    tszFields := es.tszFields.set i ⟨st.fieldNum, curXOR, curFloatBits⟩ }

/-- A Go runtime panic (the failed interface conversion in
`encodeTSZValues` when a float field holds neither a `float64` nor a
`float32`). -/
inductive GoPanic
  | interfaceConversion
deriving DecidableEq

/-- `float64(iVal.(float64) / iVal.(float32))`: the 64-bit pattern the
encoder feeds into the TSZ path, panicking on any other value kind. -/
def floatBitsOfValue : Value → Except GoPanic Nat
  | .double b => .ok b
  | .float b => .ok (f32WidenBits b)
  | .other _ => .error .interfaceConversion

/-- The loop body of `encoder.encodeTSZValues`, iterating `enc.tszFields` by
index.  A Go `return err` aborts the loop (leaving `hasWrittenFirstTSZ`
unset) and hands the error value back; `Encode` ignores it.  A panic
propagates. -/
def encodeTSZValuesAux : Nat → EncoderState → Message → Nat →
    Except GoPanic (EncoderState × Message × Option String)
  | 0, es, m, _ => .ok ({ es with hasWrittenFirstTSZ := true }, m, none)
  | fuel + 1, es, m, i =>
    if h : i < es.tszFields.length then
      let tszField := es.tszFields.get ⟨i, h⟩
      match tryGetFieldByNumber es.schema m tszField.fieldNum with
      | .error _ =>
        .ok (es, m, some "proto encoder error trying to get field number")
      | .ok iVal =>
        match floatBitsOfValue iVal with
        | .error p => .error p
        | .ok fb =>
          let es' := if es.hasWrittenFirstTSZ then writeNextTSZValue es i fb
            else writeFirstTSZValue es i fb
          encodeTSZValuesAux fuel es' (clearFieldByNumber m tszField.fieldNum) (i + 1)
    else .ok ({ es with hasWrittenFirstTSZ := true }, m, none)

/-- `encoder.encodeTSZValues`. -/
def encodeTSZValues (es : EncoderState) (m : Message) :
    Except GoPanic (EncoderState × Message × Option String) :=
  encodeTSZValuesAux es.tszFields.length es m 0

/-- `fieldsEqual` is defined elsewhere in the package (not among the given
sources).  Modelled from the spec: §6 `equalField(a, b)` — equality of the
(default-collapsed) field values. -/
def fieldsEqual (a b : Value) : Bool := a = b

/-- The diff step of `encoder.encodeProtoValues` over one schema field:
clear the clone's field if it equals the previous message's, otherwise
record it as changed. -/
def protoDiffStep (sch : Schema) (last : Message) (acc : Message × List Nat)
    (fd : FieldDesc) : Message × List Nat :=
  let prevVal := getFieldByNumber sch last fd.number
  let curVal := getFieldByNumber sch acc.1 fd.number
  if fieldsEqual curVal prevVal then (clearFieldByNumber acc.1 fd.number, acc.2)
  else (acc.1, acc.2 ++ [fd.number])

/-- `encoder.encodeProtoValues`.  When a previous message exists the input is
cloned and diffed (the caller's message is untouched); marshalling in the
model is total, so the Go error path cannot fire. -/
def encodeProtoValues (es : EncoderState) (m : Message) : EncoderState :=
  let diffed : Message × List Nat :=
    match es.lastEncoded with
    | none => (m, [])
    | some last => es.schema.foldl (protoDiffStep es.schema last) (m, [])
  if diffed.2 = [] ∧ es.lastEncoded ≠ none then
    { es with stream := es.stream ++ [false] }
  else
    let marshaled := marshal diffed.1
    { es with stream := es.stream ++ [true] ++ writeBitset diffed.2 ++
        writeVarIntBits marshaled.length ++ bytesBits marshaled }

/-- `encoder.Encode`: runs the TSZ pass (whose returned Go error it drops;
a panic propagates), then the proto pass (error also dropped), then stores
the — by now float-stripped — input message as `lastEncoded`.  The returned
message is the caller's message after the in-place mutations. -/
def Encode (es : EncoderState) (m : Message) :
    Except GoPanic (EncoderState × Message) :=
  match encodeTSZValues es m with
  | .error p => .error p
  | .ok (es1, m1, _) =>
    let es2 := encodeProtoValues es1 m1
    .ok ({ es2 with lastEncoded := some m1 }, m1)

/-- Encode a whole stream of messages against one encoder. -/
def encodeStream : EncoderState → List Message → Except GoPanic EncoderState
  | es, [] => .ok es
  | es, m :: rest =>
    match Encode es m with
    | .error p => .error p
    | .ok (es', _) => encodeStream es' rest

/-! ## The decoder

The decoding iterator is repository code that is not among the given
sources.  All definitions in this section are modelled from the spec:
§4.4 Decode steps 1–4 and the §6 frame grammar: reconstruct each numeric
field through the XOR codec (mirroring the encoder's per-field state), read
the general-run control bit, and either copy every general field from
`LastMessage` or merge the unmarshalled changed-fields payload (which takes
priority) with `LastMessage`'s fields at unchanged field numbers. -/

structure DecoderState where
  schema : Schema
  hasReadFirstTSZ : Bool
  tszFields : List TszFieldState
  lastMessage : Option Message
deriving DecidableEq

def initDecoder (sch : Schema) : DecoderState :=
  { schema := sch
    hasReadFirstTSZ := false
    tszFields := tszFieldsOf sch
    lastMessage := none }

/-- Is `n` the number of a schema-declared float (TSZ) field? -/
def isTszNumber (sch : Schema) (n : Nat) : Bool :=
  match findField sch n with
  | some fd => fd.kind = .double ∨ fd.kind = .float
  | none => false

/-- The general (non-numeric) fields of a message. -/
def generalPart (sch : Schema) (m : Message) : Message :=
  m.filter fun e => ! isTszNumber sch e.1

/-- Decode one numeric field: 64 raw bits for the first frame, otherwise the
XOR protocol against this field's mirrored state. -/
def readTSZValue (ds : DecoderState) (i : Nat) (bs : List Bool) :
    Option (Nat × DecoderState × List Bool) :=
  let st := ds.tszFields.getD i ⟨0, 0, 0⟩
  if ds.hasReadFirstTSZ then
    (readXOR st.prevXOR bs).map fun p =>
      (st.prevFloatBits ^^^ p.1,
        { ds with tszFields :=
            ds.tszFields.set i ⟨st.fieldNum, p.1, st.prevFloatBits ^^^ p.1⟩ },
        p.2)
  else
    (readBits 64 bs).map fun p =>
      (p.1, { ds with tszFields := ds.tszFields.set i ⟨st.fieldNum, p.1, p.1⟩ },
        p.2)

/-- Decode the numeric run, returning each field's number with the
reconstructed 64-bit pattern. -/
def decodeTSZValuesAux : Nat → DecoderState → Nat → List Bool →
    Option (List (Nat × Nat) × DecoderState × List Bool)
  | 0, ds, _, bs => some ([], { ds with hasReadFirstTSZ := true }, bs)
  | fuel + 1, ds, i, bs =>
    if h : i < ds.tszFields.length then
      (readTSZValue ds i bs).bind fun r =>
        (decodeTSZValuesAux fuel r.2.1 (i + 1) r.2.2).map fun s =>
          (((ds.tszFields.get ⟨i, h⟩).fieldNum, r.1) :: s.1, s.2.1, s.2.2)
    else some ([], { ds with hasReadFirstTSZ := true }, bs)

def decodeTSZValues (ds : DecoderState) (bs : List Bool) :
    Option (List (Nat × Nat) × DecoderState × List Bool) :=
  decodeTSZValuesAux ds.tszFields.length ds 0 bs

/-- Read `n` single bits. -/
def readBitList : Nat → List Bool → Option (List Bool × List Bool)
  | 0, bs => some ([], bs)
  | _ + 1, [] => none
  | n + 1, b :: bs =>
    (readBitList n bs).map fun p => (b :: p.1, p.2)

/-- Read `n` whole bytes. -/
def readBytesList : Nat → List Bool → Option (List Nat × List Bool)
  | 0, bs => some ([], bs)
  | n + 1, bs =>
    (readBits 8 bs).bind fun p =>
      (readBytesList n p.2).map fun q => (p.1 :: q.1, q.2)

/-- Bit `n` of the changed-field bitmap. -/
def bitmapHas (bitmap : List Bool) (n : Nat) : Bool := bitmap.getD n false

/-- Merge the unmarshalled changed-fields payload over the retained general
fields of the previous message. -/
def mergeGeneral (lastG : Message) (bitmap : List Bool) (changedMsg : Message) :
    Message :=
  changedMsg.foldl (fun acc e => insertField acc e.1 e.2)
    (lastG.filter fun e => ! bitmapHas bitmap e.1)

/-- Decode the general run (spec §4.4 decode steps 2–3). -/
def decodeProtoValues (ds : DecoderState) (bs : List Bool) :
    Option (Message × List Bool) :=
  match bs with
  | [] => none
  | false :: rest => some (generalPart ds.schema (ds.lastMessage.getD []), rest)
  | true :: rest =>
    (readUvarintBits 10 rest).bind fun pLen =>
      (readBitList pLen.1 pLen.2).bind fun pMap =>
        (readUvarintBits 10 pMap.2).bind fun pPay =>
          (readBytesList pPay.1 pPay.2).bind fun pBytes =>
            (unmarshal ds.schema pBytes.1).map fun changedMsg =>
              (mergeGeneral (generalPart ds.schema (ds.lastMessage.getD []))
                pMap.1 changedMsg, pBytes.2)

/-- Assign one reconstructed numeric value (narrowing 32-bit fields) into
the output under construction. -/
def assignTSZValue (sch : Schema) (acc : Message) (fv : Nat × Nat) : Message :=
  match findField sch fv.1 with
  | some fd =>
    match fd.kind with
    | .double => setFieldCanon .double acc fv.1 (.double fv.2)
    | .float => setFieldCanon .float acc fv.1 (.float (f32NarrowBits fv.2))
    | .other => acc
  | none => acc

/-- Decode one frame: numeric fields, then the general run, then assign the
reconstructed numeric values into the output. -/
def Decode (ds : DecoderState) (bs : List Bool) :
    Option (Message × DecoderState × List Bool) :=
  (decodeTSZValues ds bs).bind fun pTsz =>
    (decodeProtoValues pTsz.2.1 pTsz.2.2).map fun pGen =>
      let out := pTsz.1.foldl (assignTSZValue ds.schema) pGen.1
      (out, { pTsz.2.1 with lastMessage := some out }, pGen.2)

/-- Decode `n` consecutive frames. -/
def decodeStream : Nat → DecoderState → List Bool →
    Option (List Message × DecoderState × List Bool)
  | 0, ds, bs => some ([], ds, bs)
  | n + 1, ds, bs =>
    (Decode ds bs).bind fun p =>
      (decodeStream n p.2.1 p.2.2).map fun q => (p.1 :: q.1, q.2.1, q.2.2)

/-! ## Association-list lemmas -/

@[simp] theorem lookupField_nil (k : Nat) : lookupField [] k = none := rfl

@[simp] theorem lookupField_cons (k0 : Nat) (w : Value) (rest : Message) (k : Nat) :
    lookupField ((k0, w) :: rest) k =
      if k0 = k then some w else lookupField rest k := rfl

theorem lookupField_filter_key (m : Message) (q : Nat → Bool) (k : Nat) :
    lookupField (m.filter fun e => q e.1) k =
      if q k then lookupField m k else none := by
  induction m with
  | nil => cases hq : q k <;> simp [lookupField, hq]
  | cons e rest ih =>
    obtain ⟨k0, w⟩ := e
    simp only [List.filter_cons]
    by_cases hq0 : q k0
    · rw [if_pos (by simpa using hq0)]
      simp only [lookupField_cons]
      by_cases hk0 : k0 = k
      · subst hk0
        rw [if_pos rfl, if_pos hq0]
        rw [if_pos rfl]
      · rw [if_neg hk0, ih]
        by_cases hqk : q k
        · rw [if_pos hqk, if_pos hqk]
          rw [if_neg hk0]
        · rw [if_neg hqk, if_neg hqk]
    · rw [if_neg (by simpa using hq0), ih]
      by_cases hqk : q k
      · rw [if_pos hqk, if_pos hqk]
        have hk0 : ¬ k0 = k := by
          intro he
          subst he
          exact hq0 hqk
        rw [lookupField_cons, if_neg hk0]
      · rw [if_neg hqk, if_neg hqk]

theorem lookupField_clear (m : Message) (n k : Nat) :
    lookupField (clearFieldByNumber m n) k =
      if k = n then none else lookupField m k := by
  have h := lookupField_filter_key m (fun x => decide (x ≠ n)) k
  simp only [clearFieldByNumber]
  rw [h]
  by_cases hk : k = n
  · simp [hk]
  · simp [hk]

theorem lookupField_insert (m : Message) (n k : Nat) (v : Value) :
    lookupField (insertField m n v) k =
      if k = n then some v else lookupField m k := by
  induction m with
  | nil =>
    simp only [insertField, lookupField_cons, lookupField_nil]
    by_cases hk : n = k
    · rw [if_pos hk, if_pos (by omega : k = n)]
    · rw [if_neg hk, if_neg (by omega : ¬ k = n)]
  | cons e rest ih =>
    obtain ⟨k0, w⟩ := e
    simp only [insertField]
    by_cases h1 : n < k0
    · rw [if_pos h1]
      simp only [lookupField_cons]
      by_cases hk : n = k
      · rw [if_pos hk, if_pos (by omega : k = n)]
      · rw [if_neg hk, if_neg (by omega : ¬ k = n)]
    · rw [if_neg h1]
      by_cases h2 : n = k0
      · rw [if_pos h2]
        simp only [lookupField_cons]
        by_cases hk : n = k
        · rw [if_pos hk, if_pos (by omega : k = n)]
        · rw [if_neg hk, if_neg (by omega : ¬ k = n),
            if_neg (by omega : ¬ k0 = k)]
      · rw [if_neg h2]
        simp only [lookupField_cons]
        by_cases hk0 : k0 = k
        · rw [if_pos hk0, if_neg (by omega : ¬ k = n), if_pos hk0]
        · rw [if_neg hk0, ih, if_neg hk0]

theorem insertField_subset (rest : Message) (n : Nat) (v : Value) :
    ∀ a ∈ insertField rest n v, a ∈ (n, v) :: rest := by
  induction rest with
  | nil => simp [insertField]
  | cons e2 r2 ih2 =>
    obtain ⟨k2, w2⟩ := e2
    simp only [insertField]
    by_cases hx : n < k2
    · rw [if_pos hx]
      intro a ha
      simpa using ha
    · rw [if_neg hx]
      by_cases hy : n = k2
      · rw [if_pos hy]
        intro a ha
        simp only [List.mem_cons] at ha ⊢
        tauto
      · rw [if_neg hy]
        intro a ha
        simp only [List.mem_cons] at ha ⊢
        rcases ha with ha | ha
        · tauto
        · have := ih2 a ha
          simp only [List.mem_cons] at this
          tauto

theorem clear_ordered (m : Message) (n : Nat) (h : OrderedMsg m) :
    OrderedMsg (clearFieldByNumber m n) :=
  List.Pairwise.sublist (List.filter_sublist m) h

theorem filter_ordered (m : Message) (p : Nat × Value → Bool) (h : OrderedMsg m) :
    OrderedMsg (m.filter p) :=
  List.Pairwise.sublist (List.filter_sublist m) h

theorem insert_ordered (m : Message) (n : Nat) (v : Value) (h : OrderedMsg m) :
    OrderedMsg (insertField m n v) := by
  induction m with
  | nil => simp [insertField, OrderedMsg]
  | cons e rest ih =>
    obtain ⟨k0, w⟩ := e
    obtain ⟨hhead, htail⟩ := List.pairwise_cons.mp h
    simp only [insertField]
    by_cases h1 : n < k0
    · rw [if_pos h1]
      refine List.pairwise_cons.mpr ⟨?_, h⟩
      intro e he
      rcases List.mem_cons.mp he with he | he
      · subst he
        exact h1
      · have := hhead e he
        simp only at this ⊢
        omega
    · rw [if_neg h1]
      by_cases h2 : n = k0
      · subst h2
        rw [if_pos rfl]
        exact List.pairwise_cons.mpr ⟨fun e he => hhead e he, htail⟩
      · rw [if_neg h2]
        refine List.pairwise_cons.mpr ⟨?_, ih htail⟩
        intro e he
        rcases List.mem_cons.mp (insertField_subset rest n v e he) with he' | he'
        · subst he'
          simp only
          omega
        · exact hhead e he'

theorem lookupField_none_of_lt (r : Message) (k : Nat)
    (h : ∀ e ∈ r, k < e.1) : lookupField r k = none := by
  induction r with
  | nil => rfl
  | cons e3 r3 ih3 =>
    obtain ⟨k3, v3⟩ := e3
    have hk3 := h (k3, v3) (by simp)
    simp only at hk3
    simp only [lookupField, if_neg (by omega : ¬ k3 = k)]
    exact ih3 fun e he => h e (List.mem_cons_of_mem _ he)

/-- Two canonical messages with identical lookups are equal. -/
theorem ordered_ext : ∀ (m1 m2 : Message), OrderedMsg m1 → OrderedMsg m2 →
    (∀ n, lookupField m1 n = lookupField m2 n) → m1 = m2 := by
  intro m1
  induction m1 with
  | nil =>
    intro m2 h1 h2 h
    cases m2 with
    | nil => rfl
    | cons e rest =>
      have hx := h e.1
      simp [lookupField] at hx
  | cons e1 r1 ih =>
    intro m2 h1 h2 h
    obtain ⟨k1, v1⟩ := e1
    obtain ⟨hh1, ht1⟩ := List.pairwise_cons.mp h1
    cases m2 with
    | nil =>
      have hx := h k1
      simp [lookupField] at hx
    | cons e2 r2 =>
      obtain ⟨k2, v2⟩ := e2
      obtain ⟨hh2, ht2⟩ := List.pairwise_cons.mp h2
      have hk : k1 = k2 := by
        by_contra hne
        rcases Nat.lt_or_ge k1 k2 with hlt | hge
        · have hx := h k1
          simp only [lookupField, if_pos rfl] at hx
          rw [if_neg (by omega : ¬ k2 = k1),
            lookupField_none_of_lt r2 k1 (fun e he => by
              have := hh2 e he
              simp only at this
              omega)] at hx
          exact Option.noConfusion hx
        · have hlt2 : k2 < k1 := by omega
          have hx := h k2
          simp only [lookupField, if_pos rfl] at hx
          rw [if_neg (by omega : ¬ k1 = k2),
            lookupField_none_of_lt r1 k2 (fun e he => by
              have := hh1 e he
              simp only at this
              omega)] at hx
          exact Option.noConfusion hx.symm
      subst hk
      have hv : v1 = v2 := by
        have hx := h k1
        simp only [lookupField, if_pos rfl] at hx
        exact Option.some.inj hx
      subst hv
      refine congrArg _ (ih r2 ht1 ht2 ?_)
      intro n
      by_cases hn : n = k1
      · subst hn
        rw [lookupField_none_of_lt r1 n (fun e he => by
            have := hh1 e he
            simp only at this
            omega),
          lookupField_none_of_lt r2 n (fun e he => by
            have := hh2 e he
            simp only at this
            omega)]
      · have hx := h n
        simpa only [lookupField, if_neg (by omega : ¬ k1 = n)] using hx

/-- A canonical message whose field numbers are below `C` has at most `C`
entries. -/
theorem ordered_length_le (m : Message) (C : Nat) (hord : OrderedMsg m)
    (hbd : ∀ e ∈ m, e.1 < C) : m.length ≤ C := by
  have hnodup : (m.map Prod.fst).Nodup := by
    refine List.Pairwise.map _ ?_ hord
    intro a b hab
    omega
  have hsub : ∀ x ∈ m.map Prod.fst, x ∈ Finset.range C := by
    intro x hx
    obtain ⟨e, he, rfl⟩ := List.mem_map.mp hx
    exact Finset.mem_range.mpr (hbd e he)
  have hcard : (m.map Prod.fst).toFinset.card = (m.map Prod.fst).length :=
    List.toFinset_card_of_nodup hnodup
  have hle : (m.map Prod.fst).toFinset.card ≤ (Finset.range C).card := by
    refine Finset.card_le_card ?_
    intro x hx
    exact hsub x (List.mem_toFinset.mp hx)
  simpa [hcard] using hle

/-- In a schema with distinct numbers, `find?` at a member's number returns
that member. -/
theorem findField_of_mem (sch : Schema) (fd : FieldDesc)
    (hnodup : (sch.map FieldDesc.number).Nodup) (hmem : fd ∈ sch) :
    findField sch fd.number = some fd := by
  induction sch with
  | nil => simp at hmem
  | cons g rest ih =>
    rcases List.mem_cons.mp hmem with rfl | hmem'
    · simp [findField, List.find?]
    · have hne : g.number ≠ fd.number := by
        intro he
        have : fd.number ∈ rest.map FieldDesc.number :=
          List.mem_map.mpr ⟨fd, hmem', rfl⟩
        rw [← he] at this
        exact (List.nodup_cons.mp (by simpa using hnodup)).1 this
      simp only [findField, List.find?]
      rw [show (decide (g.number = fd.number)) = false by simpa using hne]
      exact ih (List.nodup_cons.mp (by simpa using hnodup)).2 hmem'

theorem findField_mem (sch : Schema) (n : Nat) (fd : FieldDesc)
    (h : findField sch n = some fd) : fd ∈ sch ∧ fd.number = n := by
  have hm := List.mem_of_find?_eq_some h
  have hp := List.find?_some h
  exact ⟨hm, by simpa using hp⟩

/-- Sequentially clearing a list of numbers is filtering them out. -/
theorem foldl_clear_eq_filter (ns : List Nat) (m : Message) :
    ns.foldl clearFieldByNumber m = m.filter fun e => ! ns.contains e.1 := by
  induction ns generalizing m with
  | nil => simp
  | cons n rest ih =>
    simp only [List.foldl_cons, ih, clearFieldByNumber, List.filter_filter]
    refine List.filter_congr ?_
    intro e _
    by_cases hn : e.1 = n
    · simp [hn]
    · simp [hn]

theorem readBitList_append (l rest : List Bool) :
    readBitList l.length (l ++ rest) = some (l, rest) := by
  induction l with
  | nil => simp [readBitList]
  | cons b t ih => simp [readBitList, ih]

theorem readBytesList_append (l : List Nat) (rest : List Bool)
    (hl : ∀ b ∈ l, b < 256) :
    readBytesList l.length (bytesBits l ++ rest) = some (l, rest) := by
  induction l with
  | nil => simp [readBytesList, bytesBits]
  | cons b t ih =>
    simp only [bytesBits, List.flatMap_cons, List.length_cons, readBytesList,
      List.append_assoc]
    rw [readBits_byte b _ (hl b (by simp))]
    simp only [Option.some_bind]
    rw [← bytesBits, ih fun x hx => hl x (List.mem_cons_of_mem _ hx)]
    simp

theorem uvarintF_length_le (f x : Nat) : (uvarintF f x).length ≤ f := by
  induction f generalizing x with
  | zero => simp [uvarintF]
  | succ f ih =>
    simp only [uvarintF]
    by_cases h : x < 128
    · simp [h]
    · simp only [h, if_false, List.length_cons]
      have := ih (x / 128)
      omega

theorem uvarint_length_le (x : Nat) : (uvarint x).length ≤ 10 :=
  uvarintF_length_le 10 x

theorem marshal_length_le (m : Message) : (marshal m).length ≤ 20 * m.length := by
  induction m with
  | nil => simp [marshal]
  | cons e t ih =>
    simp only [marshal, List.flatMap_cons, List.length_append, List.length_cons]
    have h1 := uvarint_length_le e.1
    have h2 : (marshalValue e.2).length ≤ 10 := by
      cases e.2 <;> simp [marshalValue, uvarint_length_le]
    simp only [marshal] at ih
    omega

theorem marshal_bytes_lt (m : Message) : ∀ b ∈ marshal m, b < 256 := by
  intro b hb
  simp only [marshal, List.mem_flatMap] at hb
  obtain ⟨e, _, hb⟩ := hb
  rcases List.mem_append.mp hb with hb | hb
  · exact uvarint_bytes_lt e.1 b hb
  · cases hv : e.2 <;> rw [hv] at hb <;> exact uvarint_bytes_lt _ b hb

theorem uvarint_ne_nil (x : Nat) : uvarint x ≠ [] := by
  simp only [uvarint, uvarintF]
  by_cases h : x < 128 <;> simp [h]

theorem unmarshalF_cons_eq (f : Nat) (sch : Schema) (bytes : List Nat)
    (hne : bytes ≠ []) :
    unmarshalF (f + 1) sch bytes =
      (readUvarintBytes 10 bytes).bind fun p =>
        (findField sch p.1).bind fun fd =>
          (readUvarintBytes 10 p.2).bind fun q =>
            (unmarshalF f sch q.2).map fun rest =>
              (p.1, valueOfKind fd.kind q.1) :: rest := by
  cases bytes with
  | nil => exact absurd rfl hne
  | cons b bs => rfl

/-- Parsing back a marshalled well-typed message returns it unchanged. -/
theorem unmarshalF_marshal (sch : Schema)
    (hnodup : (sch.map FieldDesc.number).Nodup)
    (hbound : ∀ fd ∈ sch, fd.number < 2 ^ 29) :
    ∀ (f : Nat) (m : Message), m.length < f →
    (∀ e ∈ m, ∃ fd ∈ sch, fd.number = e.1 ∧ valueOk fd.kind e.2 = true) →
    unmarshalF f sch (marshal m) = some m := by
  intro f
  induction f with
  | zero => omega
  | succ f ih =>
    intro m hlen htyped
    cases m with
    | nil => simp [marshal, unmarshalF]
    | cons e t =>
      obtain ⟨n, v⟩ := e
      obtain ⟨fd, hfd, hnum, hok⟩ := htyped (n, v) (by simp)
      simp only at hnum
      have hn64 : n < 2 ^ 64 := by
        have := hbound fd hfd
        omega
      have hmar : marshal ((n, v) :: t) =
          uvarint n ++ (marshalValue v ++ marshal t) := by
        simp [marshal]
      rw [hmar, unmarshalF_cons_eq f sch _ (by
        intro hcontra
        exact uvarint_ne_nil n (List.append_eq_nil.mp hcontra).1)]
      rw [readUvarintBytes_uvarint n _ hn64]
      simp only [Option.some_bind]
      have hfind : findField sch n = some fd := by
        rw [← hnum]
        exact findField_of_mem sch fd hnodup hfd
      rw [hfind]
      simp only [Option.some_bind]
      have hrec : unmarshalF f sch (marshal t) = some t := by
        refine ih t ?_ fun e he => htyped e (List.mem_cons_of_mem _ he)
        simp only [List.length_cons] at hlen
        omega
      have hval : ∃ b, marshalValue v = uvarint b ∧ b < 2 ^ 64 ∧
          valueOfKind fd.kind b = v := by
        cases hkind : fd.kind <;> cases hv : v <;>
          rw [hkind, hv] at hok <;> simp [valueOk] at hok
        case double.double b =>
          exact ⟨b, rfl, by simpa using hok, rfl⟩
        case float.float b =>
          refine ⟨b, rfl, ?_, rfl⟩
          have : b < 2 ^ 32 := by simpa using hok
          omega
        case other.other d =>
          exact ⟨d, rfl, by simpa using hok, rfl⟩
      obtain ⟨b, hmv, hb, hvk⟩ := hval
      rw [hmv, readUvarintBytes_uvarint b _ hb]
      simp only [Option.some_bind]
      rw [hrec]
      simp only [Option.map_some', hvk]

/-- Top-level unmarshal: the fuel `length + 1` suffices because every field
occupies at least two bytes. -/
theorem unmarshal_marshal (sch : Schema)
    (hnodup : (sch.map FieldDesc.number).Nodup)
    (hbound : ∀ fd ∈ sch, fd.number < 2 ^ 29)
    (m : Message)
    (htyped : ∀ e ∈ m, ∃ fd ∈ sch, fd.number = e.1 ∧ valueOk fd.kind e.2 = true) :
    unmarshal sch (marshal m) = some m := by
  have hlen : m.length ≤ (marshal m).length := by
    clear htyped
    induction m with
    | nil => simp
    | cons e t ih =>
      have h1 : (uvarint e.1).length ≥ 1 := by
        have := uvarint_ne_nil e.1
        cases h : uvarint e.1 with
        | nil => exact absurd h this
        | cons a l => simp
      simp only [marshal, List.flatMap_cons, List.length_append, List.length_cons]
      simp only [marshal] at ih
      omega
  exact unmarshalF_marshal sch hnodup hbound ((marshal m).length + 1) m
    (by omega) htyped

/-! ## The numeric (TSZ) pass, encoder and decoder in lockstep -/

def isFloatKind : Kind → Bool
  | .double => true
  | .float => true
  | .other => false

/-- The 64-bit pattern the encoder derives for the named field of `m`
(absent fields encode their kind's default; 32-bit floats are widened). -/
def floatBitsDefault (sch : Schema) (m : Message) (n : Nat) : Nat :=
  match getFieldByNumber sch m n with
  | .double b => b
  | .float b => f32WidenBits b
  | .other _ => 0

/-- One numeric field's emitted bits and updated state: the raw pattern
before the first frame has been written, the XOR protocol afterwards. -/
def tszWriteStep (written : Bool) (st : TszFieldState) (fb : Nat) :
    List Bool × TszFieldState :=
  if written then
    (writeXOR st.prevXOR (st.prevFloatBits ^^^ fb),
      ⟨st.fieldNum, st.prevFloatBits ^^^ fb, fb⟩)
  else (bitsOfNat fb 64, ⟨st.fieldNum, fb, fb⟩)

/-- The whole numeric run of one frame, plus the advanced field states. -/
def tszFrame (sch : Schema) (written : Bool) (m : Message)
    (sts : List TszFieldState) : List Bool × List TszFieldState :=
  (sts.flatMap fun st =>
      (tszWriteStep written st (floatBitsDefault sch m st.fieldNum)).1,
    sts.map fun st =>
      (tszWriteStep written st (floatBitsDefault sch m st.fieldNum)).2)

theorem floatBitsDefault_congr (sch : Schema) (m1 m2 : Message) (n : Nat)
    (h : lookupField m1 n = lookupField m2 n) :
    floatBitsDefault sch m1 n = floatBitsDefault sch m2 n := by
  simp [floatBitsDefault, getFieldByNumber, h]

theorem tszFrame_congr (sch : Schema) (w : Bool) (m1 m2 : Message)
    (sts : List TszFieldState)
    (h : ∀ st ∈ sts, lookupField m1 st.fieldNum = lookupField m2 st.fieldNum) :
    tszFrame sch w m1 sts = tszFrame sch w m2 sts := by
  unfold tszFrame
  refine Prod.ext ?_ ?_
  · simp only
    refine List.flatMap_congr ?_
    intro st hst
    rw [floatBitsDefault_congr sch m1 m2 st.fieldNum (h st hst)]
  · simp only
    refine List.map_congr_left ?_
    intro st hst
    rw [floatBitsDefault_congr sch m1 m2 st.fieldNum (h st hst)]

theorem set_get_self {α : Type} (l : List α) (i : Nat) (h : i < l.length) :
    l.set i l[i] = l := by
  apply List.ext_getElem
  · simp
  · intro j h1 h2
    rw [List.getElem_set]
    split
    · subst ‹i = j›
      rfl
    · rfl

theorem take_set_succ (l : List TszFieldState) (i : Nat) (a : TszFieldState)
    (h : i < l.length) :
    (l.set i a).take (i + 1) = l.take i ++ [a] := by
  rw [List.set_eq_take_cons_drop a h]
  rw [List.take_append_eq_append_take]
  simp [List.length_take, Nat.min_eq_left (Nat.le_of_lt h)]

theorem drop_set_succ (l : List TszFieldState) (i : Nat) (a : TszFieldState)
    (h : i < l.length) :
    (l.set i a).drop (i + 1) = l.drop (i + 1) := by
  rw [List.set_eq_take_cons_drop a h]
  have hlen : (l.take i).length = i := List.length_take_of_le (Nat.le_of_lt h)
  rw [show i + 1 = (l.take i).length + 1 by rw [hlen]]
  rw [List.drop_append]
  rfl

theorem floatBits_ok (sch : Schema) (m : Message) (n : Nat) (fd : FieldDesc)
    (hfind : findField sch n = some fd) (hkind : isFloatKind fd.kind = true)
    (hvok : ∀ v, lookupField m n = some v → valueOk fd.kind v = true) :
    floatBitsOfValue (getFieldByNumber sch m n) =
      .ok (floatBitsDefault sch m n) ∧ floatBitsDefault sch m n < 2 ^ 64 := by
  unfold getFieldByNumber floatBitsDefault
  rw [hfind]
  simp only [getFieldByNumber, hfind]
  cases hl : lookupField m n with
  | none =>
    cases hk : fd.kind with
    | double => simp [defaultValue, floatBitsOfValue]
    | float => simp [defaultValue, floatBitsOfValue, f32WidenBits_zero]
    | other =>
      rw [hk] at hkind
      simp [isFloatKind] at hkind
  | some v0 =>
    have hok := hvok v0 hl
    cases hk : fd.kind <;> rw [hk] at hok <;> cases hv : v0 <;> rw [hv] at hok <;>
      simp [valueOk] at hok <;> simp only [Option.getD_some]
    case double.double b =>
      simpa [floatBitsOfValue] using hok
    case float.float b =>
      simpa [floatBitsOfValue] using f32WidenBits_lt b
    case other.other d =>
      rw [hk] at hkind
      simp [isFloatKind] at hkind

theorem encodeTSZValuesAux_succ (fuel : Nat) (es : EncoderState) (m : Message)
    (i : Nat) (h : i < es.tszFields.length) (val : Value) (fb : Nat)
    (hval : tryGetFieldByNumber es.schema m
      (es.tszFields.get ⟨i, h⟩).fieldNum = .ok val)
    (hfb : floatBitsOfValue val = .ok fb) :
    encodeTSZValuesAux (fuel + 1) es m i =
      encodeTSZValuesAux fuel
        (if es.hasWrittenFirstTSZ then writeNextTSZValue es i fb
         else writeFirstTSZValue es i fb)
        (clearFieldByNumber m (es.tszFields.get ⟨i, h⟩).fieldNum) (i + 1) := by
  simp only [encodeTSZValuesAux, dif_pos h, hval, hfb]

theorem tszWriteStep_fieldNum (w : Bool) (st : TszFieldState) (fb : Nat) :
    (tszWriteStep w st fb).2.fieldNum = st.fieldNum := by
  cases w <;> rfl

theorem tszWriteStep_prevFloatBits (w : Bool) (st : TszFieldState) (fb : Nat) :
    (tszWriteStep w st fb).2.prevFloatBits = fb := by
  cases w <;> rfl

/-- The numeric pass: the encoder emits exactly `tszFrame`'s bits and
advances every per-field state, clearing the float fields from the caller's
message; the decoder consumes exactly those bits, reconstructs every 64-bit
pattern, and mirrors the state advance. -/
theorem tsz_pass (fuel : Nat) :
    ∀ (es : EncoderState) (ds : DecoderState) (m : Message) (i : Nat)
      (rest : List Bool),
    fuel + i = es.tszFields.length →
    ds.tszFields = es.tszFields →
    ds.hasReadFirstTSZ = es.hasWrittenFirstTSZ →
    ds.schema = es.schema →
    ((es.tszFields.map TszFieldState.fieldNum).drop i).Nodup →
    (∀ st ∈ es.tszFields, st.prevFloatBits < 2 ^ 64) →
    (∀ st ∈ es.tszFields.drop i, ∃ fd, findField es.schema st.fieldNum = some fd ∧
      isFloatKind fd.kind = true ∧
      ∀ v, lookupField m st.fieldNum = some v → valueOk fd.kind v = true) →
    encodeTSZValuesAux fuel es m i =
      .ok ({ es with
              stream := es.stream ++
                (tszFrame es.schema es.hasWrittenFirstTSZ m
                  (es.tszFields.drop i)).1,
              hasWrittenFirstTSZ := true,
              tszFields := es.tszFields.take i ++
                (tszFrame es.schema es.hasWrittenFirstTSZ m
                  (es.tszFields.drop i)).2 },
           m.filter (fun e =>
             ! ((es.tszFields.map TszFieldState.fieldNum).drop i).contains e.1),
           none) ∧
    decodeTSZValuesAux fuel ds i
        ((tszFrame es.schema es.hasWrittenFirstTSZ m (es.tszFields.drop i)).1 ++
          rest) =
      some ((es.tszFields.drop i).map
          (fun st => (st.fieldNum, floatBitsDefault es.schema m st.fieldNum)),
        { ds with hasReadFirstTSZ := true,
                  tszFields := es.tszFields.take i ++
                    (tszFrame es.schema es.hasWrittenFirstTSZ m
                      (es.tszFields.drop i)).2 },
        rest) := by
  induction fuel with
  | zero =>
    intro es ds m i rest hfuel hds hflag hsch hnd hbd htyp
    obtain ⟨dsch, dflag, dfields, dlast⟩ := ds
    dsimp only at hds hflag hsch
    subst hds hflag hsch
    have hi : i = es.tszFields.length := by omega
    have hdrop : es.tszFields.drop i = [] := by
      rw [hi, List.drop_length]
    have htake : es.tszFields.take i = es.tszFields := by
      rw [hi, List.take_length]
    have hmapdrop : (es.tszFields.map TszFieldState.fieldNum).drop i = [] := by
      have hlen : (es.tszFields.map TszFieldState.fieldNum).length =
          es.tszFields.length := List.length_map _ _
      rw [hi, ← hlen, List.drop_length]
    rw [hdrop, htake, hmapdrop]
    simp only [tszFrame, List.flatMap_nil, List.map_nil, List.append_nil,
      List.nil_append]
    constructor
    · simp only [encodeTSZValuesAux]
      have hfilter : m.filter (fun e => ! (List.contains [] e.1)) = m := by
        have : (fun (e : Nat × Value) => ! (List.contains [] e.1)) =
            fun _ => true := by
          funext e
          simp
        rw [this, List.filter_true]
      rw [hfilter]
    · simp only [decodeTSZValuesAux]
  | succ fuel ih =>
    intro es ds m i rest hfuel hds hflag hsch hnd hbd htyp
    obtain ⟨dsch, dflag, dfields, dlast⟩ := ds
    dsimp only at hds hflag hsch
    subst hds hflag hsch
    have hi : i < es.tszFields.length := by omega
    have hdrop : es.tszFields.drop i =
        es.tszFields[i] :: es.tszFields.drop (i + 1) :=
      List.drop_eq_getElem_cons hi
    have hstmem : es.tszFields[i] ∈ es.tszFields.drop i := by
      rw [hdrop]
      exact List.mem_cons_self _ _
    obtain ⟨fd, hfind, hkind, hvok⟩ := htyp _ hstmem
    obtain ⟨hfbok, hfblt⟩ := floatBits_ok es.schema m (es.tszFields[i]).fieldNum
      fd hfind hkind hvok
    set fb := floatBitsDefault es.schema m (es.tszFields[i]).fieldNum with hfbdef
    set stp := tszWriteStep es.hasWrittenFirstTSZ es.tszFields[i] fb with hstpdef
    have hval : tryGetFieldByNumber es.schema m
        (es.tszFields.get ⟨i, hi⟩).fieldNum =
        .ok (getFieldByNumber es.schema m
          (es.tszFields.get ⟨i, hi⟩).fieldNum) := by
      simp [tryGetFieldByNumber, getFieldByNumber, List.get_eq_getElem, hfind]
    have hstep := encodeTSZValuesAux_succ fuel es m i hi _ fb hval (by
      simpa [List.get_eq_getElem] using hfbok)
    have hgetD : es.tszFields.getD i ⟨0, 0, 0⟩ = es.tszFields[i] := by
      simp [List.getD_eq_getElem?_getD, List.getElem?_eq_getElem hi]
    have hes' : (if es.hasWrittenFirstTSZ then writeNextTSZValue es i fb
        else writeFirstTSZValue es i fb) =
        { es with stream := es.stream ++ stp.1,
                  tszFields := es.tszFields.set i stp.2 } := by
      cases hw : es.hasWrittenFirstTSZ <;>
        simp [writeNextTSZValue, writeFirstTSZValue, hstpdef, tszWriteStep, hw,
          List.getD_eq_getElem?_getD, List.getElem?_eq_getElem hi]
    set es' := ({ es with
                  stream := es.stream ++ stp.1,
                  tszFields := es.tszFields.set i stp.2 } : EncoderState)
      with hesdef
    set ds' := (⟨es.schema, es.hasWrittenFirstTSZ, es.tszFields.set i stp.2,
        dlast⟩ : DecoderState)
      with hdsdef
    set m' := clearFieldByNumber m (es.tszFields[i]).fieldNum with hmpdef
    rw [hes'] at hstep
    rw [show clearFieldByNumber m (es.tszFields.get ⟨i, hi⟩).fieldNum = m' by
      rw [hmpdef]
      simp [List.get_eq_getElem]] at hstep
    have hnum_stp : stp.2.fieldNum = (es.tszFields[i]).fieldNum := by
      rw [hstpdef]
      exact tszWriteStep_fieldNum _ _ _
    have hfb_stp : stp.2.prevFloatBits = fb := by
      rw [hstpdef]
      exact tszWriteStep_prevFloatBits _ _ _
    have h1 : fuel + (i + 1) = es'.tszFields.length := by
      simp only [hesdef, List.length_set]
      omega
    have hmapeq : es'.tszFields.map TszFieldState.fieldNum =
        es.tszFields.map TszFieldState.fieldNum := by
      simp only [hesdef]
      rw [List.map_set, hnum_stp]
      have hilen : i < (es.tszFields.map TszFieldState.fieldNum).length := by
        simpa using hi
      have hgi : (es.tszFields.map TszFieldState.fieldNum)[i] =
          (es.tszFields[i]).fieldNum := by
        simp
      rw [← hgi]
      exact set_get_self _ i hilen
    have h2 : ds'.tszFields = es'.tszFields := by
      simp only [hdsdef, hesdef]
    have h3 : ds'.hasReadFirstTSZ = es'.hasWrittenFirstTSZ := by
      simp only [hdsdef, hesdef]
    have h4 : ds'.schema = es'.schema := by
      simp only [hdsdef, hesdef]
    have hilenm : i < (es.tszFields.map TszFieldState.fieldNum).length := by
      simpa using hi
    have hdropmap : (es.tszFields.map TszFieldState.fieldNum).drop i =
        (es.tszFields[i]).fieldNum ::
          (es.tszFields.map TszFieldState.fieldNum).drop (i + 1) := by
      rw [List.drop_eq_getElem_cons hilenm]
      simp
    have hnd2 := hnd
    rw [hdropmap] at hnd2
    have hndtail := (List.nodup_cons.mp hnd2).2
    have hnotmem := (List.nodup_cons.mp hnd2).1
    have h5 : ((es'.tszFields.map TszFieldState.fieldNum).drop (i + 1)).Nodup := by
      rw [hmapeq]
      exact hndtail
    have h6 : ∀ st ∈ es'.tszFields, st.prevFloatBits < 2 ^ 64 := by
      intro st hst
      simp only [hesdef] at hst
      rcases List.mem_or_eq_of_mem_set hst with hmem | heq
      · exact hbd st hmem
      · rw [heq, hfb_stp]
        exact hfblt
    have hdrop' : es'.tszFields.drop (i + 1) = es.tszFields.drop (i + 1) := by
      simp only [hesdef]
      exact drop_set_succ _ i _ hi
    have hne_suffix : ∀ st ∈ es.tszFields.drop (i + 1),
        st.fieldNum ≠ (es.tszFields[i]).fieldNum := by
      intro st hst heq
      apply hnotmem
      rw [← heq]
      have hm2 : st.fieldNum ∈
          (es.tszFields.drop (i + 1)).map TszFieldState.fieldNum :=
        List.mem_map.mpr ⟨st, hst, rfl⟩
      rw [List.map_drop] at hm2
      exact hm2
    have hlookup' : ∀ st ∈ es.tszFields.drop (i + 1),
        lookupField m' st.fieldNum = lookupField m st.fieldNum := by
      intro st hst
      rw [hmpdef, lookupField_clear]
      rw [if_neg (hne_suffix st hst)]
    have h7 : ∀ st ∈ es'.tszFields.drop (i + 1), ∃ fd',
        findField es'.schema st.fieldNum = some fd' ∧
        isFloatKind fd'.kind = true ∧
        ∀ v, lookupField m' st.fieldNum = some v →
          valueOk fd'.kind v = true := by
      intro st hst
      rw [hdrop'] at hst
      obtain ⟨fd', hf1, hf2, hf3⟩ := htyp st (by
        rw [hdrop]
        exact List.mem_cons_of_mem _ hst)
      refine ⟨fd', ?_, hf2, ?_⟩
      · simpa only [hesdef] using hf1
      · intro v hv
        rw [hlookup' st hst] at hv
        exact hf3 v hv
    obtain ⟨hENC, hDEC⟩ := ih es' ds' m' (i + 1) rest h1 h2 h3 h4 h5 h6 h7
    have hsch' : es'.schema = es.schema := by
      simp only [hesdef]
    have hfl' : es'.hasWrittenFirstTSZ = es.hasWrittenFirstTSZ := by
      simp only [hesdef]
    have hframe_congr : tszFrame es'.schema es'.hasWrittenFirstTSZ m'
        (es'.tszFields.drop (i + 1)) =
        tszFrame es.schema es.hasWrittenFirstTSZ m
          (es.tszFields.drop (i + 1)) := by
      rw [hdrop', hsch', hfl']
      exact tszFrame_congr _ _ _ _ _ hlookup'
    have hvals_congr : (es'.tszFields.drop (i + 1)).map
        (fun st => (st.fieldNum, floatBitsDefault es'.schema m' st.fieldNum)) =
        (es.tszFields.drop (i + 1)).map
          (fun st => (st.fieldNum, floatBitsDefault es.schema m st.fieldNum)) := by
      rw [hdrop']
      refine List.map_congr_left ?_
      intro st hst
      rw [hsch', floatBitsDefault_congr _ m' m _ (hlookup' st hst)]
    have htszFrame_cons : tszFrame es.schema es.hasWrittenFirstTSZ m
        (es.tszFields.drop i) =
        (stp.1 ++ (tszFrame es.schema es.hasWrittenFirstTSZ m
            (es.tszFields.drop (i + 1))).1,
         stp.2 :: (tszFrame es.schema es.hasWrittenFirstTSZ m
            (es.tszFields.drop (i + 1))).2) := by
      rw [hdrop]
      simp only [tszFrame, List.flatMap_cons, List.map_cons, ← hfbdef, ← hstpdef]
    have htake' : es'.tszFields.take (i + 1) = es.tszFields.take i ++ [stp.2] := by
      simp only [hesdef]
      exact take_set_succ _ i _ hi
    have hfilt : m'.filter (fun e =>
        ! ((es.tszFields.map TszFieldState.fieldNum).drop (i + 1)).contains e.1) =
        m.filter (fun e =>
          ! ((es.tszFields.map TszFieldState.fieldNum).drop i).contains e.1) := by
      rw [hdropmap, hmpdef]
      simp only [clearFieldByNumber, List.filter_filter]
      refine List.filter_congr ?_
      intro e _
      by_cases h : e.1 = (es.tszFields[i]).fieldNum <;>
        simp [List.contains_cons, h]
    simp only [hframe_congr, hvals_congr, hmapeq, htake'] at hENC hDEC
    simp only [hesdef, hdsdef] at hENC hDEC
    simp only [hfilt] at hENC
    have hreadstep : readTSZValue
        ⟨es.schema, es.hasWrittenFirstTSZ, es.tszFields, dlast⟩ i
        (stp.1 ++ ((tszFrame es.schema es.hasWrittenFirstTSZ m
          (es.tszFields.drop (i + 1))).1 ++ rest)) =
        some (fb, ds',
          (tszFrame es.schema es.hasWrittenFirstTSZ m
            (es.tszFields.drop (i + 1))).1 ++ rest) := by
      unfold readTSZValue
      dsimp only
      rw [hgetD]
      cases hw : es.hasWrittenFirstTSZ
      · rw [if_neg (by simp)]
        rw [hstpdef, hw]
        simp only [tszWriteStep, Bool.false_eq_true, if_false]
        rw [readBits_exact 64 fb _ hfblt]
        simp only [Option.map_some']
        rw [hdsdef, hstpdef, hw]
        simp [tszWriteStep]
      · rw [if_pos rfl]
        rw [hstpdef, hw]
        simp only [tszWriteStep, if_true]
        have hxorlt : (es.tszFields[i]).prevFloatBits ^^^ fb < 2 ^ 64 :=
          Nat.xor_lt_two_pow (hbd _ (List.getElem_mem _)) hfblt
        rw [readXOR_writeXOR _ _ _ hxorlt]
        simp only [Option.map_some']
        rw [Nat.xor_cancel_left, hdsdef, hstpdef, hw]
        simp [tszWriteStep]
    constructor
    · -- encoder side
      rw [hstep, hENC, htszFrame_cons]
      simp only [List.append_assoc, List.singleton_append]
    · -- decoder side
      rw [htszFrame_cons]
      simp only [decodeTSZValuesAux]
      rw [dif_pos (show i < (DecoderState.mk es.schema es.hasWrittenFirstTSZ
        es.tszFields dlast).tszFields.length from hi)]
      simp only [List.append_assoc]
      rw [hreadstep]
      simp only [Option.some_bind]
      rw [hDEC]
      simp only [Option.map_some', hdsdef]
      rw [hdrop]
      simp only [List.map_cons, List.get_eq_getElem]
      rw [← hfbdef]
      simp only [List.append_assoc, List.singleton_append]

/-! ## The general-field (proto) pass -/

theorem lookupField_eq_none_of_not_mem (l : Message) (k : Nat)
    (h : k ∉ l.map Prod.fst) : lookupField l k = none := by
  induction l with
  | nil => rfl
  | cons e tl ih =>
    simp only [List.map_cons, List.mem_cons, not_or] at h
    obtain ⟨h1, h2⟩ := h
    obtain ⟨k0, v⟩ := e
    simp only [lookupField_cons]
    rw [if_neg (by simp only at h1; omega)]
    exact ih h2

theorem lookupField_foldl_insert (l : Message) :
    ∀ (base : Message) (k : Nat), (l.map Prod.fst).Nodup →
    lookupField (l.foldl (fun acc e => insertField acc e.1 e.2) base) k =
      match lookupField l k with
      | some v => some v
      | none => lookupField base k := by
  induction l with
  | nil =>
    intro base k _
    simp
  | cons e tl ih =>
    intro base k hnd
    rw [List.map_cons] at hnd
    obtain ⟨hhd, htl⟩ := List.nodup_cons.mp hnd
    simp only [List.foldl_cons]
    rw [ih (insertField base e.1 e.2) k htl]
    obtain ⟨k0, v0⟩ := e
    simp only [lookupField_cons]
    by_cases hk : k0 = k
    · subst hk
      rw [if_pos rfl]
      have htlnone : lookupField tl k0 = none :=
        lookupField_eq_none_of_not_mem tl k0 (by simpa using hhd)
      rw [htlnone]
      show lookupField (insertField base k0 v0) k0 = some v0
      rw [lookupField_insert, if_pos rfl]
    · rw [if_neg hk]
      cases hlt : lookupField tl k with
      | some v => rfl
      | none =>
        show lookupField (insertField base k0 v0) k = lookupField base k
        rw [lookupField_insert, if_neg (fun h => hk h.symm)]

theorem foldl_insert_ordered (l : Message) :
    ∀ (base : Message), OrderedMsg base →
    OrderedMsg (l.foldl (fun acc e => insertField acc e.1 e.2) base) := by
  induction l with
  | nil =>
    intro base h
    exact h
  | cons e tl ih =>
    intro base h
    simp only [List.foldl_cons]
    exact ih _ (insert_ordered _ _ _ h)

theorem ordered_map_fst_nodup (m : Message) (h : OrderedMsg m) :
    (m.map Prod.fst).Nodup := by
  refine List.Pairwise.map _ ?_ h
  intro a b hab
  omega

theorem foldl_insert_nil (g : Message) (hg : OrderedMsg g) :
    g.foldl (fun acc e => insertField acc e.1 e.2) [] = g := by
  refine ordered_ext _ g (foldl_insert_ordered g [] (by simp [OrderedMsg])) hg ?_
  intro n
  rw [lookupField_foldl_insert g [] n (ordered_map_fst_nodup g hg)]
  cases h : lookupField g n <;> simp

theorem foldl_max_init_le (values : List Nat) :
    ∀ a, a ≤ values.foldl (fun m v => if v > m then v else m) a := by
  induction values with
  | nil =>
    intro a
    simp
  | cons v tl ih =>
    intro a
    simp only [List.foldl_cons]
    by_cases h : v > a
    · rw [if_pos h]
      have := ih v
      omega
    · rw [if_neg h]
      exact ih a

theorem foldl_max_mem_le (values : List Nat) :
    ∀ a v, v ∈ values → v ≤ values.foldl (fun m v => if v > m then v else m) a := by
  induction values with
  | nil =>
    intro a v hv
    simp at hv
  | cons w tl ih =>
    intro a v hv
    simp only [List.foldl_cons]
    rcases List.mem_cons.mp hv with rfl | hv
    · by_cases h : v > a
      · rw [if_pos h]
        exact foldl_max_init_le tl v
      · rw [if_neg h]
        have := foldl_max_init_le tl a
        omega
    · by_cases h : w > a
      · rw [if_pos h]
        exact ih _ v hv
      · rw [if_neg h]
        exact ih _ v hv

theorem bitmapHas_range_map (values : List Nat) (len n : Nat)
    (hall : ∀ v ∈ values, v < len) :
    bitmapHas ((List.range len).map fun i => values.contains i) n =
      values.contains n := by
  by_cases hn : n < len
  · simp [bitmapHas, List.getD_eq_getElem?_getD, List.getElem?_map,
      List.getElem?_range hn]
  · have hcon : values.contains n = false := by
      cases hc : values.contains n
      · rfl
      · have hmem : n ∈ values := by
          simpa using hc
        have := hall n hmem
        omega
    simp only [bitmapHas, List.getD_eq_getElem?_getD]
    rw [List.getElem?_eq_none (by
      rw [List.length_map, List.length_range]
      omega)]
    simp only [Option.getD_none]
    exact hcon.symm

theorem getFieldByNumber_clear_ne (sch : Schema) (m : Message) (n k : Nat)
    (h : k ≠ n) :
    getFieldByNumber sch (clearFieldByNumber m n) k =
      getFieldByNumber sch m k := by
  unfold getFieldByNumber
  rw [lookupField_clear, if_neg h]

/-- The clone-and-clear diff loop of `encodeProtoValues`: the surviving clone
holds exactly the entries at changed numbers, and the changed list collects
the changed schema numbers in schema order. -/
theorem protoDiff_spec (sch : Schema) (last : Message) :
    ∀ (fields : List FieldDesc) (m : Message) (ch : List Nat),
    (fields.map FieldDesc.number).Nodup →
    fields.foldl (protoDiffStep sch last) (m, ch) =
      (m.filter fun e => ! ((fields.filter fun fd =>
          fieldsEqual (getFieldByNumber sch m fd.number)
            (getFieldByNumber sch last fd.number)).map FieldDesc.number).contains
          e.1,
       ch ++ (fields.filter fun fd =>
          ! fieldsEqual (getFieldByNumber sch m fd.number)
            (getFieldByNumber sch last fd.number)).map FieldDesc.number) := by
  intro fields
  induction fields with
  | nil =>
    intro m ch _
    simp
  | cons fd tl ih =>
    intro m ch hnd
    rw [List.map_cons] at hnd
    obtain ⟨hhd, htl⟩ := List.nodup_cons.mp hnd
    have hne : ∀ fd' ∈ tl, fd'.number ≠ fd.number := by
      intro fd' hmem heq2
      exact hhd (List.mem_map.mpr ⟨fd', hmem, heq2⟩)
    simp only [List.foldl_cons, protoDiffStep]
    by_cases heq : fieldsEqual (getFieldByNumber sch m fd.number)
        (getFieldByNumber sch last fd.number) = true
    · rw [if_pos heq]
      rw [ih (clearFieldByNumber m fd.number) ch htl]
      have hGFcongr : ∀ fd' ∈ tl,
          getFieldByNumber sch (clearFieldByNumber m fd.number) fd'.number =
            getFieldByNumber sch m fd'.number := fun fd' hmem =>
        getFieldByNumber_clear_ne sch m fd.number fd'.number (hne fd' hmem)
      have hfiltEq : (tl.filter fun fd' =>
          fieldsEqual
            (getFieldByNumber sch (clearFieldByNumber m fd.number) fd'.number)
            (getFieldByNumber sch last fd'.number)) =
          tl.filter fun fd' =>
            fieldsEqual (getFieldByNumber sch m fd'.number)
              (getFieldByNumber sch last fd'.number) := by
        refine List.filter_congr ?_
        intro fd' hmem
        rw [hGFcongr fd' hmem]
      have hfiltNe : (tl.filter fun fd' =>
          ! fieldsEqual
            (getFieldByNumber sch (clearFieldByNumber m fd.number) fd'.number)
            (getFieldByNumber sch last fd'.number)) =
          tl.filter fun fd' =>
            ! fieldsEqual (getFieldByNumber sch m fd'.number)
              (getFieldByNumber sch last fd'.number) := by
        refine List.filter_congr ?_
        intro fd' hmem
        rw [hGFcongr fd' hmem]
      rw [hfiltEq, hfiltNe]
      refine Prod.ext ?_ ?_
      · simp only [List.filter_cons, heq, if_pos, List.map_cons]
        simp only [clearFieldByNumber, List.filter_filter]
        refine List.filter_congr ?_
        intro e _
        by_cases h : e.1 = fd.number <;> simp [List.contains_cons, h]
      · simp only [List.filter_cons, heq, Bool.not_true, Bool.false_eq_true,
          if_false]
    · have heq' : fieldsEqual (getFieldByNumber sch m fd.number)
          (getFieldByNumber sch last fd.number) = false := by
        cases h2 : fieldsEqual (getFieldByNumber sch m fd.number)
          (getFieldByNumber sch last fd.number)
        · rfl
        · exact absurd h2 heq
      rw [if_neg heq]
      rw [ih m (ch ++ [fd.number]) htl]
      refine Prod.ext ?_ ?_
      · simp only [List.filter_cons, heq', Bool.false_eq_true, if_false]
      · simp only [List.filter_cons, heq', Bool.not_false, if_true,
          List.map_cons, List.append_assoc, List.singleton_append]

theorem mem_of_lookupField_some (a : Message) (k : Nat) (v : Value)
    (h : lookupField a k = some v) : (k, v) ∈ a := by
  induction a with
  | nil => simp [lookupField] at h
  | cons e tl ih =>
    obtain ⟨k0, v0⟩ := e
    rw [lookupField_cons] at h
    by_cases hk : k0 = k
    · rw [if_pos hk] at h
      subst hk
      obtain rfl := Option.some.inj h
      exact List.mem_cons_self _ _
    · rw [if_neg hk] at h
      exact List.mem_cons_of_mem _ (ih h)

theorem findField_unique (sch : Schema) (n : Nat) (fd fd' : FieldDesc)
    (hnd : (sch.map FieldDesc.number).Nodup) (hfind : findField sch n = some fd)
    (hmem : fd' ∈ sch) (hnum : fd'.number = n) : fd' = fd := by
  have := findField_of_mem sch fd' hnd hmem
  rw [hnum, hfind] at this
  exact (Option.some.inj this).symm

theorem lookup_none_of_findField_none (sch : Schema) (a : Message) (k : Nat)
    (hnd : (sch.map FieldDesc.number).Nodup)
    (htyped : ∀ e ∈ a, ∃ fd ∈ sch, fd.number = e.1)
    (hfind : findField sch k = none) : lookupField a k = none := by
  cases h : lookupField a k with
  | none => rfl
  | some v =>
    obtain ⟨fd, hfd, hnum⟩ := htyped (k, v) (mem_of_lookupField_some a k v h)
    have := findField_of_mem sch fd hnd hfd
    simp only at hnum
    rw [hnum, hfind] at this
    exact Option.noConfusion this

theorem lookup_eq_of_getF_eq (sch : Schema) (a b : Message) (n : Nat)
    (fd : FieldDesc) (hfind : findField sch n = some fd)
    (ha : ∀ v, lookupField a n = some v → v ≠ defaultValue fd.kind)
    (hb : ∀ v, lookupField b n = some v → v ≠ defaultValue fd.kind)
    (h : getFieldByNumber sch a n = getFieldByNumber sch b n) :
    lookupField a n = lookupField b n := by
  unfold getFieldByNumber at h
  rw [hfind] at h
  cases hla : lookupField a n with
  | none =>
    cases hlb : lookupField b n with
    | none => rfl
    | some v =>
      rw [hla, hlb] at h
      simp only [Option.getD_none, Option.getD_some] at h
      exact absurd h.symm (hb v hlb)
  | some v =>
    cases hlb : lookupField b n with
    | none =>
      rw [hla, hlb] at h
      simp only [Option.getD_none, Option.getD_some] at h
      exact absurd h (ha v hla)
    | some w =>
      rw [hla, hlb] at h
      simp only [Option.getD_some] at h
      rw [h]

theorem contains_filter_map_number (sch : Schema) (p : FieldDesc → Bool)
    (k : Nat) (fd : FieldDesc) (hnd : (sch.map FieldDesc.number).Nodup)
    (hfind : findField sch k = some fd) :
    ((sch.filter p).map FieldDesc.number).contains k = p fd := by
  obtain ⟨hmem, hnum⟩ := findField_mem sch k fd hfind
  cases hp : p fd
  · cases hc : ((sch.filter p).map FieldDesc.number).contains k
    · rfl
    · have hmem2 : k ∈ (sch.filter p).map FieldDesc.number := by
        simpa using hc
      obtain ⟨fd', hfd', hnum'⟩ := List.mem_map.mp hmem2
      have hfd'mem : fd' ∈ sch := List.mem_of_mem_filter hfd'
      have hfd'p : p fd' = true := List.of_mem_filter hfd'
      have : fd' = fd := findField_unique sch k fd fd' hnd hfind hfd'mem hnum'
      rw [this] at hfd'p
      rw [hfd'p] at hp
      exact Bool.noConfusion hp
  · have hmemf : fd ∈ sch.filter p := List.mem_filter.mpr ⟨hmem, hp⟩
    have : k ∈ (sch.filter p).map FieldDesc.number :=
      List.mem_map.mpr ⟨fd, hmemf, hnum⟩
    simpa using this

theorem contains_map_number_of_findField_none (sch : Schema)
    (p : FieldDesc → Bool) (k : Nat) (hfind : findField sch k = none) :
    ((sch.filter p).map FieldDesc.number).contains k = false := by
  cases hc : ((sch.filter p).map FieldDesc.number).contains k
  · rfl
  · have hmem2 : k ∈ (sch.filter p).map FieldDesc.number := by
      simpa using hc
    obtain ⟨fd', hfd', hnum'⟩ := List.mem_map.mp hmem2
    have hfd'mem : fd' ∈ sch := List.mem_of_mem_filter hfd'
    have : findField sch k ≠ none := by
      rw [← hnum']
      intro hcontra
      have hall := List.find?_eq_none.mp hcontra fd' hfd'mem
      simp at hall
    exact absurd hfind this

theorem foldl_max_lt (values : List Nat) (C : Nat) (_ : 0 < C)
    (hall : ∀ v ∈ values, v < C) :
    ∀ a, a < C → values.foldl (fun m v => if v > m then v else m) a < C := by
  induction values with
  | nil =>
    intro a ha
    simpa using ha
  | cons v tl ih =>
    intro a ha
    simp only [List.foldl_cons]
    have hv := hall v (by simp)
    by_cases h : v > a
    · rw [if_pos h]
      exact ih (fun w hw => hall w (List.mem_cons_of_mem _ hw)) v hv
    · rw [if_neg h]
      exact ih (fun w hw => hall w (List.mem_cons_of_mem _ hw)) a ha

theorem lookup_generalPart (sch : Schema) (m : Message) (k : Nat) :
    lookupField (generalPart sch m) k =
      if isTszNumber sch k then none else lookupField m k := by
  unfold generalPart
  rw [lookupField_filter_key m (fun x => ! isTszNumber sch x) k]
  cases h : isTszNumber sch k <;> simp [h]

/-- The changed general field numbers, in schema order. -/
def protoChanged (sch : Schema) (last g : Message) : List Nat :=
  (sch.filter fun fd => ! fieldsEqual (getFieldByNumber sch g fd.number)
    (getFieldByNumber sch last fd.number)).map FieldDesc.number

/-- The clone after clearing unchanged fields: exactly the entries at
changed numbers. -/
def protoKept (sch : Schema) (last g : Message) : Message :=
  g.filter fun e => ! ((sch.filter fun fd =>
    fieldsEqual (getFieldByNumber sch g fd.number)
      (getFieldByNumber sch last fd.number)).map FieldDesc.number).contains e.1

/-- The general run of one frame. -/
def protoRun (sch : Schema) (lastOpt : Option Message) (g : Message) :
    List Bool :=
  match lastOpt with
  | none => true :: (writeBitset [] ++ writeVarIntBits (marshal g).length ++
      bytesBits (marshal g))
  | some last =>
    if protoChanged sch last g = [] then [false]
    else true :: (writeBitset (protoChanged sch last g) ++
      writeVarIntBits (marshal (protoKept sch last g)).length ++
      bytesBits (marshal (protoKept sch last g)))

/-- `encodeProtoValues` appends exactly the general run. -/
theorem encodeProtoValues_spec (es : EncoderState) (g : Message)
    (hnd : (es.schema.map FieldDesc.number).Nodup) :
    encodeProtoValues es g =
      { es with stream := es.stream ++ protoRun es.schema es.lastEncoded g } := by
  unfold encodeProtoValues protoRun
  cases hlast : es.lastEncoded with
  | none =>
    simp only
    rw [if_neg (by simp)]
    simp [List.append_assoc, List.singleton_append]
  | some last =>
    simp only
    rw [protoDiff_spec es.schema last es.schema g [] hnd]
    simp only [List.nil_append]
    by_cases hch : protoChanged es.schema last g = []
    · rw [if_pos ⟨by simpa only [protoChanged] using hch, by simp⟩]
      rw [if_pos hch]
    · rw [if_neg (by
        simp only [protoChanged] at hch
        simp [hch])]
      rw [if_neg hch]
      simp only [protoChanged, protoKept]
      simp [List.append_assoc, List.singleton_append]

theorem marshal_length_lt (sch : Schema) (g : Message)
    (hwf : wfSchema sch) (hord : OrderedMsg g)
    (htyped : ∀ e ∈ g, ∃ fd ∈ sch, fd.number = e.1 ∧
      valueOk fd.kind e.2 = true) :
    (marshal g).length < 2 ^ 64 := by
  have hbd : ∀ e ∈ g, e.1 < 2 ^ 29 := by
    intro e he
    obtain ⟨fd, hfd, hnum, _⟩ := htyped e he
    have := hwf.2 fd hfd
    omega
  have hlen : g.length ≤ 2 ^ 29 := ordered_length_le g (2 ^ 29) hord hbd
  have := marshal_length_le g
  omega

theorem lookupField_foldl_insert_some (l base : Message) (k : Nat) (v : Value)
    (hnd : (l.map Prod.fst).Nodup) (h : lookupField l k = some v) :
    lookupField (l.foldl (fun acc e => insertField acc e.1 e.2) base) k =
      some v := by
  rw [lookupField_foldl_insert l base k hnd, h]

theorem lookupField_foldl_insert_none (l base : Message) (k : Nat)
    (hnd : (l.map Prod.fst).Nodup) (h : lookupField l k = none) :
    lookupField (l.foldl (fun acc e => insertField acc e.1 e.2) base) k =
      lookupField base k := by
  rw [lookupField_foldl_insert l base k hnd, h]

/-- Parsing a well-formed changed-fields run. -/
theorem decodeProtoValues_parse (ds : DecoderState) (bitmap : List Bool)
    (m2 : Message) (rest : List Bool)
    (hlen : bitmap.length < 2 ^ 64)
    (hmlen : (marshal m2).length < 2 ^ 64)
    (hum : unmarshal ds.schema (marshal m2) = some m2) :
    decodeProtoValues ds (true :: (writeVarIntBits bitmap.length ++ (bitmap ++
      (writeVarIntBits (marshal m2).length ++ (bytesBits (marshal m2) ++
        rest))))) =
      some (mergeGeneral (generalPart ds.schema (ds.lastMessage.getD []))
        bitmap m2, rest) := by
  simp only [decodeProtoValues, writeVarIntBits]
  rw [readUvarintBits_uvarint _ _ hlen]
  dsimp only [Option.some_bind]
  rw [readBitList_append]
  dsimp only [Option.some_bind]
  rw [readUvarintBits_uvarint _ _ hmlen]
  dsimp only [Option.some_bind]
  rw [readBytesList_append _ _ (marshal_bytes_lt m2)]
  dsimp only [Option.some_bind]
  rw [hum]
  dsimp only [Option.map_some']

/-- A first-frame general run decodes back to the encoded message. -/
theorem proto_decode_first (sch : Schema) (flag : Bool)
    (fields : List TszFieldState) (g : Message) (rest : List Bool)
    (hwf : wfSchema sch) (hord : OrderedMsg g)
    (htyped : ∀ e ∈ g, ∃ fd ∈ sch, fd.number = e.1 ∧
      valueOk fd.kind e.2 = true) :
    decodeProtoValues ⟨sch, flag, fields, none⟩
      (protoRun sch none g ++ rest) = some (g, rest) := by
  have hrun : protoRun sch none g ++ rest =
      true :: (writeVarIntBits ([false] : List Bool).length ++ ([false] ++
        (writeVarIntBits (marshal g).length ++
          (bytesBits (marshal g) ++ rest)))) := by
    simp only [protoRun, List.cons_append]
    congr 1
    have h1 : writeBitset [] =
        writeVarIntBits ([false] : List Bool).length ++ [false] := by rfl
    rw [h1]
    simp [List.append_assoc]
  rw [hrun]
  rw [decodeProtoValues_parse ⟨sch, flag, fields, none⟩ [false] g rest
    (by norm_num)
    (marshal_length_lt sch g hwf hord htyped)
    (unmarshal_marshal sch hwf.1 hwf.2 g htyped)]
  have hmg : mergeGeneral (generalPart sch []) [false] g = g := by
    unfold mergeGeneral generalPart
    simp only [List.filter_nil]
    exact foldl_insert_nil g hord
  dsimp only [Option.getD_none]
  rw [hmg]

/-- A next-frame general run, decoded over the retained previous message,
reproduces the new general message. -/
theorem proto_decode_next (sch : Schema) (flag : Bool)
    (fields : List TszFieldState) (mPrev g : Message) (rest : List Bool)
    (hwf : wfSchema sch)
    (hordP : OrderedMsg mPrev)
    (htypedP : ∀ e ∈ mPrev, ∃ fd ∈ sch, fd.number = e.1 ∧
      valueOk fd.kind e.2 = true ∧ e.2 ≠ defaultValue fd.kind)
    (hord : OrderedMsg g)
    (htyped : ∀ e ∈ g, ∃ fd ∈ sch, fd.number = e.1 ∧
      valueOk fd.kind e.2 = true ∧ e.2 ≠ defaultValue fd.kind) :
    decodeProtoValues ⟨sch, flag, fields, some mPrev⟩
      (protoRun sch (some (generalPart sch mPrev)) g ++ rest) =
      some (g, rest) := by
  have hnd := hwf.1
  have hordLG : OrderedMsg (generalPart sch mPrev) :=
    filter_ordered mPrev _ hordP
  have htypedLG : ∀ e ∈ generalPart sch mPrev, ∃ fd ∈ sch, fd.number = e.1 ∧
      valueOk fd.kind e.2 = true ∧ e.2 ≠ defaultValue fd.kind := fun e he =>
    htypedP e (List.mem_of_mem_filter he)
  have hnedef : ∀ (a : Message), (∀ e ∈ a, ∃ fd ∈ sch, fd.number = e.1 ∧
      valueOk fd.kind e.2 = true ∧ e.2 ≠ defaultValue fd.kind) →
      ∀ k fd, findField sch k = some fd →
      ∀ v, lookupField a k = some v → v ≠ defaultValue fd.kind := by
    intro a hty k fd hfind v hv
    obtain ⟨fd', hfd', hnum', _, hne⟩ :=
      hty (k, v) (mem_of_lookupField_some a k v hv)
    have hfd'eq : fd' = fd := findField_unique sch k fd fd' hnd hfind hfd' hnum'
    rw [← hfd'eq]
    exact hne
  by_cases hch : protoChanged sch (generalPart sch mPrev) g = []
  · have hrun : protoRun sch (some (generalPart sch mPrev)) g = [false] := by
      simp only [protoRun]
      rw [if_pos hch]
    rw [hrun, List.singleton_append]
    simp only [decodeProtoValues, Option.getD_some]
    have hall : ∀ fd ∈ sch, fieldsEqual (getFieldByNumber sch g fd.number)
        (getFieldByNumber sch (generalPart sch mPrev) fd.number) = true := by
      intro fd hfd
      by_contra hne
      have hmemc : fd ∈ sch.filter fun fd =>
          ! fieldsEqual (getFieldByNumber sch g fd.number)
            (getFieldByNumber sch (generalPart sch mPrev) fd.number) :=
        List.mem_filter.mpr ⟨hfd, by simpa using hne⟩
      have hmemn : fd.number ∈ protoChanged sch (generalPart sch mPrev) g :=
        List.mem_map.mpr ⟨fd, hmemc, rfl⟩
      rw [hch] at hmemn
      simp at hmemn
    have hgeq : generalPart sch mPrev = g := by
      refine ordered_ext _ g hordLG hord ?_
      intro k
      cases hfind : findField sch k with
      | none =>
        rw [lookup_none_of_findField_none sch (generalPart sch mPrev) k hnd
          (fun e he => by
            obtain ⟨fd, h1, h2, _⟩ := htypedLG e he
            exact ⟨fd, h1, h2⟩) hfind,
          lookup_none_of_findField_none sch g k hnd
          (fun e he => by
            obtain ⟨fd, h1, h2, _⟩ := htyped e he
            exact ⟨fd, h1, h2⟩) hfind]
      | some fd =>
        obtain ⟨hmem, hnum⟩ := findField_mem sch k fd hfind
        have heqf := hall fd hmem
        rw [hnum] at heqf
        have hg : getFieldByNumber sch (generalPart sch mPrev) k =
            getFieldByNumber sch g k := by
          have : getFieldByNumber sch g k =
              getFieldByNumber sch (generalPart sch mPrev) k := by
            simpa [fieldsEqual] using heqf
          exact this.symm
        exact lookup_eq_of_getF_eq sch (generalPart sch mPrev) g k fd hfind
          (hnedef _ htypedLG k fd hfind) (hnedef _ htyped k fd hfind) hg
    rw [hgeq]
  · have hrun : protoRun sch (some (generalPart sch mPrev)) g =
        true :: (writeBitset (protoChanged sch (generalPart sch mPrev) g) ++
          writeVarIntBits
            (marshal (protoKept sch (generalPart sch mPrev) g)).length ++
          bytesBits (marshal (protoKept sch (generalPart sch mPrev) g))) := by
      simp only [protoRun]
      rw [if_neg hch]
    rw [hrun, List.cons_append]
    simp only [writeBitset, List.append_assoc]
    have hordKT : OrderedMsg (protoKept sch (generalPart sch mPrev) g) :=
      filter_ordered g _ hord
    have htypedKT : ∀ e ∈ protoKept sch (generalPart sch mPrev) g,
        ∃ fd ∈ sch, fd.number = e.1 ∧ valueOk fd.kind e.2 = true := by
      intro e he
      obtain ⟨fd, h1, h2, h3, _⟩ := htyped e (List.mem_of_mem_filter he)
      exact ⟨fd, h1, h2, h3⟩
    have hchbound : ∀ v ∈ protoChanged sch (generalPart sch mPrev) g,
        v < 2 ^ 29 := by
      intro v hv
      obtain ⟨fd, hfd, hnum⟩ := List.mem_map.mp hv
      have := hwf.2 fd (List.mem_of_mem_filter hfd)
      omega
    have hmx : (protoChanged sch (generalPart sch mPrev) g).foldl
        (fun m v => if v > m then v else m) 0 + 1 < 2 ^ 64 := by
      have := foldl_max_lt (protoChanged sch (generalPart sch mPrev) g)
        (2 ^ 29) (by norm_num) hchbound 0 (by norm_num)
      omega
    have hpd := decodeProtoValues_parse ⟨sch, flag, fields, some mPrev⟩
      ((List.range ((protoChanged sch (generalPart sch mPrev) g).foldl
        (fun m v => if v > m then v else m) 0 + 1)).map fun i =>
          (protoChanged sch (generalPart sch mPrev) g).contains i)
      (protoKept sch (generalPart sch mPrev) g) rest
      (by simpa using hmx)
      (marshal_length_lt sch _ hwf hordKT htypedKT)
      (unmarshal_marshal sch hwf.1 hwf.2 _ htypedKT)
    rw [List.length_map, List.length_range] at hpd
    rw [hpd]
    dsimp only [Option.getD_some]
    have hbit : ∀ k, bitmapHas ((List.range
        ((protoChanged sch (generalPart sch mPrev) g).foldl
          (fun m v => if v > m then v else m) 0 + 1)).map fun i =>
            (protoChanged sch (generalPart sch mPrev) g).contains i) k =
        (protoChanged sch (generalPart sch mPrev) g).contains k := by
      intro k
      refine bitmapHas_range_map _ _ k ?_
      intro v hv
      have := foldl_max_mem_le (protoChanged sch (generalPart sch mPrev) g) 0
        v hv
      omega
    have hmerge : mergeGeneral (generalPart sch mPrev)
        ((List.range ((protoChanged sch (generalPart sch mPrev) g).foldl
          (fun m v => if v > m then v else m) 0 + 1)).map fun i =>
            (protoChanged sch (generalPart sch mPrev) g).contains i)
        (protoKept sch (generalPart sch mPrev) g) = g := by
      refine ordered_ext _ g ?_ hord ?_
      · exact foldl_insert_ordered _ _ (filter_ordered _ _ hordLG)
      · intro k
        have hndKT : ((protoKept sch (generalPart sch mPrev) g).map
            Prod.fst).Nodup := ordered_map_fst_nodup _ hordKT
        have hKTl : lookupField (protoKept sch (generalPart sch mPrev) g) k =
            if ((sch.filter fun fd =>
                fieldsEqual (getFieldByNumber sch g fd.number)
                  (getFieldByNumber sch (generalPart sch mPrev)
                    fd.number)).map FieldDesc.number).contains k then none
            else lookupField g k := by
          unfold protoKept
          rw [lookupField_filter_key g (fun x => ! ((sch.filter fun fd =>
            fieldsEqual (getFieldByNumber sch g fd.number)
              (getFieldByNumber sch (generalPart sch mPrev)
                fd.number)).map FieldDesc.number).contains x) k]
          cases hc : ((sch.filter fun fd =>
              fieldsEqual (getFieldByNumber sch g fd.number)
                (getFieldByNumber sch (generalPart sch mPrev)
                  fd.number)).map FieldDesc.number).contains k <;> simp [hc]
        have hBl : lookupField ((generalPart sch mPrev).filter fun e =>
            ! bitmapHas ((List.range
              ((protoChanged sch (generalPart sch mPrev) g).foldl
                (fun m v => if v > m then v else m) 0 + 1)).map fun i =>
                  (protoChanged sch (generalPart sch mPrev) g).contains i)
              e.1) k =
            if (protoChanged sch (generalPart sch mPrev) g).contains k then
              none
            else lookupField (generalPart sch mPrev) k := by
          rw [lookupField_filter_key (generalPart sch mPrev) (fun x =>
            ! bitmapHas ((List.range
              ((protoChanged sch (generalPart sch mPrev) g).foldl
                (fun m v => if v > m then v else m) 0 + 1)).map fun i =>
                  (protoChanged sch (generalPart sch mPrev) g).contains i)
              x) k]
          rw [hbit k]
          cases hc : (protoChanged sch (generalPart sch mPrev) g).contains k
            <;> simp [hc]
        cases hfind : findField sch k with
        | none =>
          have hgl : lookupField g k = none :=
            lookup_none_of_findField_none sch g k hnd
              (fun e he => by
                obtain ⟨fd, h1, h2, _⟩ := htyped e he
                exact ⟨fd, h1, h2⟩) hfind
          have hLl : lookupField (generalPart sch mPrev) k = none :=
            lookup_none_of_findField_none sch (generalPart sch mPrev) k hnd
              (fun e he => by
                obtain ⟨fd, h1, h2, _⟩ := htypedLG e he
                exact ⟨fd, h1, h2⟩) hfind
          have hKTnone : lookupField
              (protoKept sch (generalPart sch mPrev) g) k = none := by
            rw [hKTl]
            cases hc : ((sch.filter fun fd =>
                fieldsEqual (getFieldByNumber sch g fd.number)
                  (getFieldByNumber sch (generalPart sch mPrev)
                    fd.number)).map FieldDesc.number).contains k
            · simpa [hc] using hgl
            · simp [hc]
          rw [mergeGeneral,
            lookupField_foldl_insert_none _ _ k hndKT hKTnone, hBl, hgl]
          have hCHc : (protoChanged sch (generalPart sch mPrev) g).contains k
              = false := by
            unfold protoChanged
            exact contains_map_number_of_findField_none sch _ k hfind
          rw [hCHc]
          simpa using hLl
        | some fd =>
          obtain ⟨hmem, hnum⟩ := findField_mem sch k fd hfind
          have hEQc : ((sch.filter fun fd =>
              fieldsEqual (getFieldByNumber sch g fd.number)
                (getFieldByNumber sch (generalPart sch mPrev)
                  fd.number)).map FieldDesc.number).contains k =
              fieldsEqual (getFieldByNumber sch g k)
                (getFieldByNumber sch (generalPart sch mPrev) k) := by
            rw [contains_filter_map_number sch _ k fd hnd hfind, hnum]
          have hCHc : (protoChanged sch (generalPart sch mPrev) g).contains k
              = ! fieldsEqual (getFieldByNumber sch g k)
                (getFieldByNumber sch (generalPart sch mPrev) k) := by
            unfold protoChanged
            rw [contains_filter_map_number sch _ k fd hnd hfind, hnum]
          cases heq : fieldsEqual (getFieldByNumber sch g k)
              (getFieldByNumber sch (generalPart sch mPrev) k) with
          | true =>
            have hKTnone : lookupField
                (protoKept sch (generalPart sch mPrev) g) k = none := by
              rw [hKTl, hEQc, heq]
              simp
            rw [mergeGeneral,
              lookupField_foldl_insert_none _ _ k hndKT hKTnone, hBl, hCHc,
              heq]
            simp only [Bool.not_true, if_neg Bool.false_ne_true]
            have hgeq : getFieldByNumber sch (generalPart sch mPrev) k =
                getFieldByNumber sch g k := by
              have : getFieldByNumber sch g k =
                  getFieldByNumber sch (generalPart sch mPrev) k := by
                simpa [fieldsEqual] using heq
              exact this.symm
            exact lookup_eq_of_getF_eq sch (generalPart sch mPrev) g k fd
              hfind (hnedef _ htypedLG k fd hfind)
              (hnedef _ htyped k fd hfind) hgeq
          | false =>
            have hKTg : lookupField
                (protoKept sch (generalPart sch mPrev) g) k =
                lookupField g k := by
              rw [hKTl, hEQc, heq]
              simp
            cases hgl : lookupField g k with
            | some v =>
              rw [mergeGeneral, lookupField_foldl_insert_some _ _ k v hndKT
                (by rw [hKTg, hgl])]
            | none =>
              rw [mergeGeneral, lookupField_foldl_insert_none _ _ k hndKT
                (by rw [hKTg, hgl]), hBl, hCHc, heq]
              simp
    rw [hmerge]

theorem f32NarrowBits_zero : f32NarrowBits 0 = 0 := by
  unfold f32NarrowBits
  norm_num

theorem isFloatKind_decide (k : Kind) :
    (decide (k = Kind.double ∨ k = Kind.float)) = isFloatKind k := by
  cases k <;> rfl

theorem isTszNumber_eq (sch : Schema) (k : Nat)
    (hnd : (sch.map FieldDesc.number).Nodup) :
    isTszNumber sch k =
      ((sch.filter fun fd => isFloatKind fd.kind).map
        FieldDesc.number).contains k := by
  cases hf : findField sch k with
  | none =>
    rw [contains_map_number_of_findField_none sch _ k hf]
    simp [isTszNumber, hf]
  | some fd =>
    rw [contains_filter_map_number sch _ k fd hnd hf]
    simp only [isTszNumber, hf]
    exact isFloatKind_decide fd.kind

theorem tszFieldsOf_map_fieldNum (sch : Schema) :
    (tszFieldsOf sch).map TszFieldState.fieldNum =
      (sch.filter fun fd => isFloatKind fd.kind).map FieldDesc.number := by
  unfold tszFieldsOf
  rw [List.map_map]
  rw [List.filter_congr (fun fd _ => isFloatKind_decide fd.kind)]
  rfl

/-- The value the decoder's assignment step stores for one reconstructed
numeric field (independent of the accumulator). -/
def assignLookup (sch : Schema) (p : Nat × Nat) : Option Value :=
  match findField sch p.1 with
  | some fd =>
    match fd.kind with
    | .double => if Value.double p.2 = defaultValue .double then none
        else some (.double p.2)
    | .float => if Value.float (f32NarrowBits p.2) = defaultValue .float then
        none
        else some (.float (f32NarrowBits p.2))
    | .other => none
  | none => none

theorem lookup_assign (sch : Schema) (acc : Message) (p : Nat × Nat) (k : Nat)
    (hf : ∃ fd, findField sch p.1 = some fd ∧ isFloatKind fd.kind = true) :
    lookupField (assignTSZValue sch acc p) k =
      if p.1 = k then assignLookup sch p else lookupField acc k := by
  obtain ⟨fd, hfind, hfl⟩ := hf
  simp only [assignTSZValue, assignLookup, hfind]
  cases hk : fd.kind with
  | other =>
    rw [hk] at hfl
    simp [isFloatKind] at hfl
  | double =>
    unfold setFieldCanon
    by_cases hd : (Value.double p.2) = defaultValue .double
    · rw [if_pos hd, if_pos hd, lookupField_clear]
      by_cases hpk : p.1 = k
      · rw [if_pos hpk.symm, if_pos hpk]
      · rw [if_neg (fun h => hpk h.symm), if_neg hpk]
    · rw [if_neg hd, if_neg hd, lookupField_insert]
      by_cases hpk : p.1 = k
      · rw [if_pos hpk.symm, if_pos hpk]
      · rw [if_neg (fun h => hpk h.symm), if_neg hpk]
  | float =>
    unfold setFieldCanon
    by_cases hd : (Value.float (f32NarrowBits p.2)) = defaultValue .float
    · rw [if_pos hd, if_pos hd, lookupField_clear]
      by_cases hpk : p.1 = k
      · rw [if_pos hpk.symm, if_pos hpk]
      · rw [if_neg (fun h => hpk h.symm), if_neg hpk]
    · rw [if_neg hd, if_neg hd, lookupField_insert]
      by_cases hpk : p.1 = k
      · rw [if_pos hpk.symm, if_pos hpk]
      · rw [if_neg (fun h => hpk h.symm), if_neg hpk]

theorem assign_ordered (sch : Schema) (acc : Message) (p : Nat × Nat)
    (h : OrderedMsg acc) : OrderedMsg (assignTSZValue sch acc p) := by
  cases hf : findField sch p.1 with
  | none => simpa only [assignTSZValue, hf] using h
  | some fd =>
    cases hk : fd.kind with
    | double =>
      simp only [assignTSZValue, hf, hk, setFieldCanon]
      split
      · exact clear_ordered _ _ h
      · exact insert_ordered _ _ _ h
    | float =>
      simp only [assignTSZValue, hf, hk, setFieldCanon]
      split
      · exact clear_ordered _ _ h
      · exact insert_ordered _ _ _ h
    | other => simpa only [assignTSZValue, hf, hk] using h

theorem assign_foldl_ordered (sch : Schema) :
    ∀ (ps : List (Nat × Nat)) (base : Message), OrderedMsg base →
    OrderedMsg (ps.foldl (assignTSZValue sch) base) := by
  intro ps
  induction ps with
  | nil =>
    intro base h
    exact h
  | cons p tl ih =>
    intro base h
    simp only [List.foldl_cons]
    exact ih _ (assign_ordered sch base p h)

theorem assign_foldl_lookup (sch : Schema) :
    ∀ (ps : List (Nat × Nat)) (base : Message) (k : Nat),
    (ps.map Prod.fst).Nodup →
    (∀ p ∈ ps, ∃ fd, findField sch p.1 = some fd ∧
      isFloatKind fd.kind = true) →
    lookupField (ps.foldl (assignTSZValue sch) base) k =
      match ps.find? fun p => p.1 = k with
      | some p => assignLookup sch p
      | none => lookupField base k := by
  intro ps
  induction ps with
  | nil =>
    intro base k _ _
    rfl
  | cons p tl ih =>
    intro base k hnd hfl
    rw [List.map_cons] at hnd
    obtain ⟨hp1, htlnd⟩ := List.nodup_cons.mp hnd
    simp only [List.foldl_cons]
    rw [ih (assignTSZValue sch base p) k htlnd
      (fun q hq => hfl q (List.mem_cons_of_mem _ hq))]
    by_cases hpk : p.1 = k
    · subst hpk
      have htl : tl.find? (fun q => decide (q.1 = p.1)) = none := by
        refine List.find?_eq_none.mpr ?_
        intro q hq
        simp only [decide_eq_true_eq]
        intro hc
        exact hp1 (by rw [← hc]; exact List.mem_map.mpr ⟨q, hq, rfl⟩)
      rw [List.find?_cons_of_pos _ (by simp)]
      simp only [htl]
      rw [lookup_assign sch base p p.1 (hfl p (List.mem_cons_self _ _)),
        if_pos rfl]
    · rw [List.find?_cons_of_neg _ (by simpa using hpk)]
      cases htl : tl.find? fun q => decide (q.1 = k) with
      | some q => simp only [htl]
      | none =>
        simp only [htl]
        rw [lookup_assign sch base p k (hfl p (List.mem_cons_self _ _)),
          if_neg hpk]

theorem find_pair_map (nums : List Nat) (F : Nat → Nat) (k : Nat) :
    ∀ (_ : k ∈ nums),
    (nums.map fun n => (n, F n)).find? (fun p => p.1 = k) = some (k, F k) := by
  induction nums with
  | nil =>
    intro h
    simp at h
  | cons n tl ih =>
    intro h
    by_cases hn : n = k
    · subst hn
      rw [List.map_cons, List.find?_cons_of_pos _ (by simp)]
    · rw [List.map_cons, List.find?_cons_of_neg _ (by simpa using hn)]
      refine ih ?_
      rcases List.mem_cons.mp h with h1 | h1
      · exact absurd h1.symm hn
      · exact h1

theorem find_pair_map_none (nums : List Nat) (F : Nat → Nat) (k : Nat)
    (h : k ∉ nums) :
    (nums.map fun n => (n, F n)).find? (fun p => p.1 = k) = none := by
  refine List.find?_eq_none.mpr ?_
  intro q hq
  obtain ⟨n, hn, rfl⟩ := List.mem_map.mp hq
  simp only [decide_eq_true_eq]
  intro hc
  subst hc
  exact h hn

/-- Re-assigning every reconstructed numeric value into the decoded general
part rebuilds the original message. -/
theorem assign_reconstruct (sch : Schema) (m : Message) (nums : List Nat)
    (hwf : wfSchema sch) (hord : OrderedMsg m)
    (htyped : ∀ e ∈ m, ∃ fd ∈ sch, fd.number = e.1 ∧
      valueOk fd.kind e.2 = true ∧ e.2 ≠ defaultValue fd.kind)
    (hnums : nums = (sch.filter fun fd => isFloatKind fd.kind).map
      FieldDesc.number) :
    (nums.map fun n => (n, floatBitsDefault sch m n)).foldl
      (assignTSZValue sch) (generalPart sch m) = m := by
  subst hnums
  have hnd := hwf.1
  have hnodnums : ((sch.filter fun fd => isFloatKind fd.kind).map
      FieldDesc.number).Nodup := by
    have hsub : ((sch.filter fun fd => isFloatKind fd.kind).map
        FieldDesc.number).Sublist (sch.map FieldDesc.number) :=
      (List.filter_sublist sch).map _
    exact List.Nodup.sublist hsub hnd
  have hfl : ∀ p ∈ ((sch.filter fun fd => isFloatKind fd.kind).map
      FieldDesc.number).map (fun n => (n, floatBitsDefault sch m n)),
      ∃ fd, findField sch p.1 = some fd ∧ isFloatKind fd.kind = true := by
    intro p hp
    obtain ⟨n, hn, rfl⟩ := List.mem_map.mp hp
    obtain ⟨fd, hfd, rfl⟩ := List.mem_map.mp hn
    refine ⟨fd, findField_of_mem sch fd hnd (List.mem_of_mem_filter hfd), ?_⟩
    have h2 := List.of_mem_filter hfd
    exact h2
  have hndp : ((((sch.filter fun fd => isFloatKind fd.kind).map
      FieldDesc.number).map fun n => (n, floatBitsDefault sch m n)).map
        Prod.fst).Nodup := by
    rw [List.map_map]
    have hcomp : (Prod.fst ∘ fun n : Nat => (n, floatBitsDefault sch m n)) =
        id := rfl
    rw [hcomp, List.map_id]
    exact hnodnums
  refine ordered_ext _ m
    (assign_foldl_ordered sch _ _ (filter_ordered m _ hord)) hord ?_
  intro k
  rw [assign_foldl_lookup sch _ _ k hndp hfl]
  by_cases hk : k ∈ (sch.filter fun fd => isFloatKind fd.kind).map
      FieldDesc.number
  · rw [find_pair_map _ _ k hk]
    obtain ⟨fd, hfd, hnum⟩ := List.mem_map.mp hk
    have hfind : findField sch k = some fd := by
      rw [← hnum]
      exact findField_of_mem sch fd hnd (List.mem_of_mem_filter hfd)
    have hflk : isFloatKind fd.kind = true := by
      have h2 := List.of_mem_filter hfd
      exact h2
    cases hl : lookupField m k with
    | none =>
      cases hkind : fd.kind with
      | double =>
        simp [assignLookup, hfind, floatBitsDefault, getFieldByNumber, hl,
          hkind, defaultValue]
      | float =>
        simp [assignLookup, hfind, floatBitsDefault, getFieldByNumber, hl,
          hkind, defaultValue, f32WidenBits_zero, f32NarrowBits_zero]
      | other =>
        rw [hkind] at hflk
        simp [isFloatKind] at hflk
    | some v =>
      obtain ⟨fd', hfd', hnum', hok, hne⟩ :=
        htyped (k, v) (mem_of_lookupField_some m k v hl)
      have hfdeq : fd' = fd := findField_unique sch k fd fd' hnd hfind hfd'
        hnum'
      subst hfdeq
      cases hkind : fd'.kind with
      | double =>
        rw [hkind] at hok hne
        cases v with
        | double b =>
          simp only [valueOk] at hok
          have hb0 : b ≠ 0 := by
            intro h0
            apply hne
            rw [h0]
            rfl
          simp [assignLookup, hfind, hkind, floatBitsDefault,
            getFieldByNumber, hl, defaultValue, hb0]
        | float b => simp [valueOk] at hok
        | other d => simp [valueOk] at hok
      | float =>
        rw [hkind] at hok hne
        cases v with
        | float b =>
          simp only [valueOk, decide_eq_true_eq] at hok
          have hb0 : b ≠ 0 := by
            intro h0
            apply hne
            rw [h0]
            rfl
          have hnarrow := f32NarrowBits_widen b hok
          simp [assignLookup, hfind, hkind, floatBitsDefault,
            getFieldByNumber, hl, defaultValue, hnarrow, hb0]
        | double b => simp [valueOk] at hok
        | other d => simp [valueOk] at hok
      | other =>
        rw [hkind] at hflk
        simp [isFloatKind] at hflk
  · rw [find_pair_map_none _ _ k hk]
    rw [lookup_generalPart]
    have hts : isTszNumber sch k = false := by
      rw [isTszNumber_eq sch k hnd]
      simpa using hk
    rw [hts]
    simp

/-- The coupling invariant between an encoder and a decoder that have
processed the same frames against the same schema. -/
def Coupled (sch : Schema) (es : EncoderState) (ds : DecoderState) : Prop :=
  es.schema = sch ∧
  ds.schema = sch ∧
  ds.tszFields = es.tszFields ∧
  ds.hasReadFirstTSZ = es.hasWrittenFirstTSZ ∧
  es.tszFields.map TszFieldState.fieldNum =
    (sch.filter fun fd => isFloatKind fd.kind).map FieldDesc.number ∧
  (∀ st ∈ es.tszFields, st.prevFloatBits < 2 ^ 64) ∧
  match es.lastEncoded, ds.lastMessage with
  | none, none => True
  | some le, some lm => wellTyped sch lm ∧ le = generalPart sch lm
  | _, _ => False

theorem coupled_init (sch : Schema) :
    Coupled sch (initEncoder sch) (initDecoder sch) := by
  refine ⟨rfl, rfl, rfl, rfl, tszFieldsOf_map_fieldNum sch, ?_, trivial⟩
  intro st hst
  obtain ⟨fd, _, rfl⟩ := List.mem_map.mp hst
  norm_num

/-- One frame: encoding appends the numeric run then the general run, and
decoding that frame against a coupled decoder reproduces the message
exactly, re-coupling the states. -/
theorem frame_roundtrip (sch : Schema) (es : EncoderState) (ds : DecoderState)
    (m : Message) (rest : List Bool)
    (hwf : wfSchema sch) (hc : Coupled sch es ds) (hm : wellTyped sch m) :
    Encode es m = .ok
      ({ stream := es.stream ++
            ((tszFrame sch es.hasWrittenFirstTSZ m es.tszFields).1 ++
              protoRun sch es.lastEncoded (generalPart sch m)),
          schema := sch,
          hasWrittenFirstTSZ := true,
          lastEncoded := some (generalPart sch m),
          tszFields := (tszFrame sch es.hasWrittenFirstTSZ m es.tszFields).2 },
        generalPart sch m) ∧
    Decode ds ((tszFrame sch es.hasWrittenFirstTSZ m es.tszFields).1 ++
        (protoRun sch es.lastEncoded (generalPart sch m) ++ rest)) =
      some (m,
        { schema := sch, hasReadFirstTSZ := true,
          tszFields := (tszFrame sch es.hasWrittenFirstTSZ m es.tszFields).2,
          lastMessage := some m },
        rest) := by
  obtain ⟨estream, esch, eflag, elast, etsz⟩ := es
  obtain ⟨dsch, dflag, dtsz, dlast⟩ := ds
  obtain ⟨hsch, hdsch, hdtsz, hdflag, hmap, hbound, hlast⟩ := hc
  obtain ⟨hordm, htypm⟩ := hm
  dsimp only at hsch hdsch hdtsz hdflag hmap hbound hlast ⊢
  have hs1 := hsch.symm
  subst hs1
  have hs2 := hdsch.symm
  subst hs2
  have hs3 := hdtsz.symm
  subst hs3
  have hs4 := hdflag.symm
  subst hs4
  have hnd := hwf.1
  have htyp0 : ∀ st ∈ etsz.drop 0, ∃ fd,
      findField sch st.fieldNum = some fd ∧ isFloatKind fd.kind = true ∧
      ∀ v, lookupField m st.fieldNum = some v → valueOk fd.kind v = true := by
    rw [List.drop_zero]
    intro st hst
    have hmem : st.fieldNum ∈ (sch.filter fun fd =>
        isFloatKind fd.kind).map FieldDesc.number := by
      rw [← hmap]
      exact List.mem_map.mpr ⟨st, hst, rfl⟩
    obtain ⟨fd, hfd, hnum⟩ := List.mem_map.mp hmem
    have hfind : findField sch st.fieldNum = some fd := by
      rw [← hnum]
      exact findField_of_mem sch fd hnd (List.mem_of_mem_filter hfd)
    refine ⟨fd, hfind, by have h2 := List.of_mem_filter hfd; exact h2, ?_⟩
    intro v hv
    obtain ⟨fd', hfd', hnum', hok, _⟩ :=
      htypm (st.fieldNum, v) (mem_of_lookupField_some m _ v hv)
    have : fd' = fd := findField_unique sch st.fieldNum fd fd' hnd hfind
      hfd' hnum'
    rw [← this]
    exact hok
  have hnd0 : ((etsz.map TszFieldState.fieldNum).drop 0).Nodup := by
    rw [List.drop_zero, hmap]
    have hsub : ((sch.filter fun fd => isFloatKind fd.kind).map
        FieldDesc.number).Sublist (sch.map FieldDesc.number) :=
      (List.filter_sublist sch).map _
    exact List.Nodup.sublist hsub hnd
  have htsz := tsz_pass etsz.length ⟨estream, sch, eflag, elast, etsz⟩
    ⟨sch, eflag, etsz, dlast⟩ m 0
    (protoRun sch elast (generalPart sch m) ++ rest)
    rfl rfl rfl rfl hnd0 hbound htyp0
  simp only [List.drop_zero, List.take_zero, List.nil_append] at htsz
  have hm1 : m.filter (fun e =>
      ! (etsz.map TszFieldState.fieldNum).contains e.1) = generalPart sch m := by
    unfold generalPart
    refine List.filter_congr ?_
    intro e _
    rw [hmap, ← isTszNumber_eq sch e.1 hnd]
  have htypg : ∀ e ∈ generalPart sch m, ∃ fd ∈ sch, fd.number = e.1 ∧
      valueOk fd.kind e.2 = true ∧ e.2 ≠ defaultValue fd.kind := fun e he =>
    htypm e (List.mem_of_mem_filter he)
  have htypg2 : ∀ e ∈ generalPart sch m, ∃ fd ∈ sch, fd.number = e.1 ∧
      valueOk fd.kind e.2 = true := by
    intro e he
    obtain ⟨fd, h1, h2, h3, _⟩ := htypg e he
    exact ⟨fd, h1, h2, h3⟩
  have hordg : OrderedMsg (generalPart sch m) := filter_ordered m _ hordm
  have h1 := htsz.1
  rw [hm1] at h1
  have h2 := htsz.2
  -- the general run decodes to the general part
  have hproto : decodeProtoValues ⟨sch, true, (tszFrame sch eflag m etsz).2,
      dlast⟩ (protoRun sch elast (generalPart sch m) ++ rest) =
      some (generalPart sch m, rest) := by
    cases elast with
    | none =>
      cases dlast with
      | none =>
        exact proto_decode_first sch true (tszFrame sch eflag m etsz).2
          (generalPart sch m) rest hwf hordg htypg2
      | some lm => exact absurd hlast (by simp)
    | some le =>
      cases dlast with
      | none => exact absurd hlast (by simp)
      | some lm =>
        obtain ⟨⟨hordP, htypP⟩, hle⟩ := hlast
        rw [hle]
        exact proto_decode_next sch true (tszFrame sch eflag m etsz).2 lm
          (generalPart sch m) rest hwf hordP htypP hordg htypg
  have hout : (etsz.map fun st =>
      (st.fieldNum, floatBitsDefault sch m st.fieldNum)).foldl
        (assignTSZValue sch) (generalPart sch m) = m := by
    have hpairs : (etsz.map fun st =>
        (st.fieldNum, floatBitsDefault sch m st.fieldNum)) =
        ((sch.filter fun fd => isFloatKind fd.kind).map FieldDesc.number).map
          (fun n => (n, floatBitsDefault sch m n)) := by
      rw [← hmap, List.map_map]
      rfl
    rw [hpairs]
    exact assign_reconstruct sch m _ hwf hordm htypm rfl
  constructor
  · -- encoder side
    simp only [Encode, encodeTSZValues, h1]
    rw [encodeProtoValues_spec _ (generalPart sch m) hnd]
    simp [List.append_assoc]
  · -- decoder side
    simp only [Decode, decodeTSZValues, h2]
    dsimp only [Option.some_bind]
    rw [hproto]
    dsimp only [Option.map_some']
    rw [hout]

theorem tszFrame_map_fieldNum (sch : Schema) (w : Bool) (m : Message)
    (sts : List TszFieldState) :
    ((tszFrame sch w m sts).2).map TszFieldState.fieldNum =
      sts.map TszFieldState.fieldNum := by
  unfold tszFrame
  rw [List.map_map]
  refine List.map_congr_left ?_
  intro st _
  exact tszWriteStep_fieldNum w st _

theorem tsz_typing (sch : Schema) (m : Message) (tsz : List TszFieldState)
    (hwf : wfSchema sch)
    (hmap : tsz.map TszFieldState.fieldNum =
      (sch.filter fun fd => isFloatKind fd.kind).map FieldDesc.number)
    (htypm : ∀ e ∈ m, ∃ fd ∈ sch, fd.number = e.1 ∧
      valueOk fd.kind e.2 = true ∧ e.2 ≠ defaultValue fd.kind) :
    ∀ st ∈ tsz, ∃ fd, findField sch st.fieldNum = some fd ∧
      isFloatKind fd.kind = true ∧
      ∀ v, lookupField m st.fieldNum = some v → valueOk fd.kind v = true := by
  intro st hst
  have hmem : st.fieldNum ∈ (sch.filter fun fd =>
      isFloatKind fd.kind).map FieldDesc.number := by
    rw [← hmap]
    exact List.mem_map.mpr ⟨st, hst, rfl⟩
  obtain ⟨fd, hfd, hnum⟩ := List.mem_map.mp hmem
  have hfind : findField sch st.fieldNum = some fd := by
    rw [← hnum]
    exact findField_of_mem sch fd hwf.1 (List.mem_of_mem_filter hfd)
  refine ⟨fd, hfind, by have h2 := List.of_mem_filter hfd; exact h2, ?_⟩
  intro v hv
  obtain ⟨fd', hfd', hnum', hok, _⟩ :=
    htypm (st.fieldNum, v) (mem_of_lookupField_some m _ v hv)
  have : fd' = fd := findField_unique sch st.fieldNum fd fd' hwf.1 hfind
    hfd' hnum'
  rw [← this]
  exact hok

theorem tszFrame_bound (sch : Schema) (w : Bool) (m : Message)
    (sts : List TszFieldState)
    (h : ∀ st ∈ sts, ∃ fd, findField sch st.fieldNum = some fd ∧
      isFloatKind fd.kind = true ∧
      ∀ v, lookupField m st.fieldNum = some v → valueOk fd.kind v = true) :
    ∀ st' ∈ (tszFrame sch w m sts).2, st'.prevFloatBits < 2 ^ 64 := by
  intro st' hst'
  unfold tszFrame at hst'
  obtain ⟨st, hst, rfl⟩ := List.mem_map.mp hst'
  rw [tszWriteStep_prevFloatBits]
  obtain ⟨fd, hfind, hfl, hvok⟩ := h st hst
  exact (floatBits_ok sch m st.fieldNum fd hfind hfl hvok).2

/-- After one frame the (literal) successor states are coupled again. -/
theorem coupled_next (sch : Schema) (es : EncoderState) (ds : DecoderState)
    (m : Message) (s : List Bool) (hwf : wfSchema sch)
    (hc : Coupled sch es ds) (hm : wellTyped sch m) :
    Coupled sch
      ⟨s, sch, true, some (generalPart sch m),
        (tszFrame sch es.hasWrittenFirstTSZ m es.tszFields).2⟩
      ⟨sch, true, (tszFrame sch es.hasWrittenFirstTSZ m es.tszFields).2,
        some m⟩ := by
  obtain ⟨hsch, hdsch, hdtsz, hdflag, hmap, hbound, hlast⟩ := hc
  refine ⟨rfl, rfl, rfl, rfl, ?_, ?_, hm, rfl⟩
  · rw [tszFrame_map_fieldNum]
    exact hmap
  · exact tszFrame_bound sch _ m _ (tsz_typing sch m _ hwf hmap hm.2)

/-- A whole stream of frames: the encoder appends some bit tail; decoding
that tail from a coupled decoder returns exactly the message list. -/
theorem stream_roundtrip (sch : Schema) (hwf : wfSchema sch) :
    ∀ (ms : List Message) (es : EncoderState) (ds : DecoderState)
      (rest : List Bool),
    Coupled sch es ds →
    (∀ m ∈ ms, wellTyped sch m) →
    ∃ es' ds' tail,
      encodeStream es ms = .ok es' ∧
      es'.stream = es.stream ++ tail ∧
      decodeStream ms.length ds (tail ++ rest) = some (ms, ds', rest) := by
  intro ms
  induction ms with
  | nil =>
    intro es ds rest hc _
    exact ⟨es, ds, [], rfl, by simp, by simp [decodeStream]⟩
  | cons m tl ih =>
    intro es ds rest hc hty
    have hm := hty m (by simp)
    obtain ⟨henc, _⟩ := frame_roundtrip sch es ds m [] hwf hc hm
    have hc1 : Coupled sch
        ⟨es.stream ++ ((tszFrame sch es.hasWrittenFirstTSZ m es.tszFields).1 ++
            protoRun sch es.lastEncoded (generalPart sch m)), sch, true,
          some (generalPart sch m),
          (tszFrame sch es.hasWrittenFirstTSZ m es.tszFields).2⟩
        ⟨sch, true, (tszFrame sch es.hasWrittenFirstTSZ m es.tszFields).2,
          some m⟩ :=
      coupled_next sch es ds m _ hwf hc hm
    obtain ⟨es', ds', tail2, henc2, hstream2, hdec2⟩ :=
      ih _ _ rest hc1 (fun x hx => hty x (List.mem_cons_of_mem _ hx))
    obtain ⟨_, hdec1⟩ := frame_roundtrip sch es ds m (tail2 ++ rest) hwf hc hm
    refine ⟨es', ds',
      (tszFrame sch es.hasWrittenFirstTSZ m es.tszFields).1 ++
        (protoRun sch es.lastEncoded (generalPart sch m) ++ tail2),
      ?_, ?_, ?_⟩
    · simp only [encodeStream, henc]
      exact henc2
    · rw [hstream2]
      dsimp only
      simp [List.append_assoc]
    · simp only [List.length_cons, decodeStream]
      rw [show (tszFrame sch es.hasWrittenFirstTSZ m es.tszFields).1 ++
          (protoRun sch es.lastEncoded (generalPart sch m) ++ tail2) ++ rest =
          (tszFrame sch es.hasWrittenFirstTSZ m es.tszFields).1 ++
            (protoRun sch es.lastEncoded (generalPart sch m) ++
              (tail2 ++ rest)) from by simp [List.append_assoc]]
      rw [hdec1]
      dsimp only [Option.some_bind]
      rw [hdec2]
      dsimp only [Option.map_some']

/-- The encoder side of one frame on its own (no decoder in sight): the
numeric run then the general run are appended, the float fields are cleared
from the caller's message, and the stripped message becomes `lastEncoded`. -/
theorem encode_frame (sch : Schema) (es : EncoderState) (m : Message)
    (hwf : wfSchema sch) (hsch : es.schema = sch)
    (hmap : es.tszFields.map TszFieldState.fieldNum =
      (sch.filter fun fd => isFloatKind fd.kind).map FieldDesc.number)
    (hbound : ∀ st ∈ es.tszFields, st.prevFloatBits < 2 ^ 64)
    (hm : wellTyped sch m) :
    Encode es m = .ok
      ({ stream := es.stream ++
            ((tszFrame sch es.hasWrittenFirstTSZ m es.tszFields).1 ++
              protoRun sch es.lastEncoded (generalPart sch m)),
          schema := sch,
          hasWrittenFirstTSZ := true,
          lastEncoded := some (generalPart sch m),
          tszFields := (tszFrame sch es.hasWrittenFirstTSZ m es.tszFields).2 },
        generalPart sch m) := by
  obtain ⟨estream, esch, eflag, elast, etsz⟩ := es
  dsimp only at hsch hmap hbound ⊢
  have hs1 := hsch.symm
  subst hs1
  obtain ⟨hordm, htypm⟩ := hm
  have hnd := hwf.1
  have htyp0 : ∀ st ∈ etsz.drop 0, ∃ fd,
      findField sch st.fieldNum = some fd ∧ isFloatKind fd.kind = true ∧
      ∀ v, lookupField m st.fieldNum = some v → valueOk fd.kind v = true := by
    rw [List.drop_zero]
    exact tsz_typing sch m etsz hwf hmap htypm
  have hnd0 : ((etsz.map TszFieldState.fieldNum).drop 0).Nodup := by
    rw [List.drop_zero, hmap]
    have hsub : ((sch.filter fun fd => isFloatKind fd.kind).map
        FieldDesc.number).Sublist (sch.map FieldDesc.number) :=
      (List.filter_sublist sch).map _
    exact List.Nodup.sublist hsub hnd
  have htsz := tsz_pass etsz.length ⟨estream, sch, eflag, elast, etsz⟩
    ⟨sch, eflag, etsz, none⟩ m 0 [] rfl rfl rfl rfl hnd0 hbound htyp0
  simp only [List.drop_zero, List.take_zero, List.nil_append] at htsz
  have h1 := htsz.1
  have hm1 : m.filter (fun e =>
      ! (etsz.map TszFieldState.fieldNum).contains e.1) =
      generalPart sch m := by
    unfold generalPart
    refine List.filter_congr ?_
    intro e _
    rw [hmap, ← isTszNumber_eq sch e.1 hnd]
  rw [hm1] at h1
  simp only [Encode, encodeTSZValues, h1]
  rw [encodeProtoValues_spec _ (generalPart sch m) hnd]
  simp [List.append_assoc]

/-! ## Helper lemmas for the individual claims -/

theorem protoChanged_self (sch : Schema) (g : Message) :
    protoChanged sch g g = [] := by
  unfold protoChanged
  have h : sch.filter (fun fd =>
      ! fieldsEqual (getFieldByNumber sch g fd.number)
        (getFieldByNumber sch g fd.number)) = [] := by
    refine List.filter_eq_nil_iff.mpr ?_
    intro fd _
    simp [fieldsEqual]
  rw [h]
  rfl

theorem tszFrame_zero (sch : Schema) (m : Message) :
    ∀ (sts : List TszFieldState),
    (∀ st ∈ sts, st.prevFloatBits = floatBitsDefault sch m st.fieldNum) →
    (tszFrame sch true m sts).1 = List.replicate sts.length false := by
  intro sts
  induction sts with
  | nil =>
    intro _
    rfl
  | cons st tl ih =>
    intro hprev
    have h0 : (tszWriteStep true st (floatBitsDefault sch m st.fieldNum)).1 =
        [false] := by
      have hp := hprev st (List.mem_cons_self _ _)
      simp [tszWriteStep, hp, Nat.xor_self, writeXOR]
    have htl := ih (fun s hs => hprev s (List.mem_cons_of_mem _ hs))
    unfold tszFrame at htl ⊢
    dsimp only at htl ⊢
    rw [List.flatMap_cons, h0, htl]
    rfl

theorem filter_eq_singleton (p : FieldDesc → Bool) (fd0 : FieldDesc) :
    ∀ (sch : Schema), (sch.map FieldDesc.number).Nodup → fd0 ∈ sch →
    p fd0 = true → (∀ fd ∈ sch, fd ≠ fd0 → p fd = false) →
    sch.filter p = [fd0] := by
  intro sch
  induction sch with
  | nil =>
    intro _ hmem _ _
    simp at hmem
  | cons x xs ih =>
    intro hnd hmem hp0 hrest
    rw [List.map_cons] at hnd
    obtain ⟨hx, hxs⟩ := List.nodup_cons.mp hnd
    rcases List.mem_cons.mp hmem with rfl | hmem2
    · rw [List.filter_cons, if_pos (by simp [hp0])]
      have hnil : xs.filter p = [] := by
        refine List.filter_eq_nil_iff.mpr ?_
        intro fd hfd
        have hne : fd ≠ fd0 := by
          intro h
          apply hx
          rw [← h]
          exact List.mem_map.mpr ⟨fd, hfd, rfl⟩
        simp [hrest fd (List.mem_cons_of_mem _ hfd) hne]
      rw [hnil]
    · have hnex : x ≠ fd0 := by
        intro h
        apply hx
        rw [h]
        exact List.mem_map.mpr ⟨fd0, hmem2, rfl⟩
      rw [List.filter_cons, if_neg (by
        simp [hrest x (List.mem_cons_self _ _) hnex])]
      exact ih hxs hmem2 hp0
        (fun fd hfd hne => hrest fd (List.mem_cons_of_mem _ hfd) hne)

theorem filter_key_single (n : Nat) :
    ∀ (g : Message), OrderedMsg g →
    g.filter (fun e => decide (e.1 = n)) =
      (match lookupField g n with
       | some v => [(n, v)]
       | none => []) := by
  intro g
  induction g with
  | nil =>
    intro _
    rfl
  | cons e rest ih =>
    intro hord
    obtain ⟨k, v⟩ := e
    obtain ⟨hlt, hrest⟩ := List.pairwise_cons.mp hord
    rw [List.filter_cons]
    by_cases hk : k = n
    · subst hk
      rw [if_pos (by simp)]
      have hnil : rest.filter (fun e => decide (e.1 = k)) = [] := by
        refine List.filter_eq_nil_iff.mpr ?_
        intro e2 he2
        have := hlt e2 he2
        simp
        omega
      rw [hnil, lookupField_cons, if_pos rfl]
    · rw [if_neg (by simp [hk]), ih hrest, lookupField_cons, if_neg hk]

theorem range_map_contains_single (n : Nat) :
    (List.range (n + 1)).map (fun i => ([n] : List Nat).contains i) =
      List.replicate n false ++ [true] := by
  have haux : ∀ m k : Nat, m ≤ k →
      (List.range m).map (fun i => ([k] : List Nat).contains i) =
        List.replicate m false := by
    intro m
    induction m with
    | zero =>
      intro k _
      rfl
    | succ m ih =>
      intro k hk
      rw [List.range_succ, List.map_append, ih k (by omega)]
      have hne : ¬(m = k) := by omega
      simp [List.replicate_succ', hne]
  rw [List.range_succ, List.map_append, haux n n (le_refl n)]
  simp

theorem foldl_max_single (n : Nat) :
    ([n] : List Nat).foldl (fun m v => if v > m then v else m) 0 = n := by
  rcases Nat.eq_zero_or_pos n with rfl | h
  · rfl
  · simp [h]

instance (sch : Schema) : Decidable (wfSchema sch) := by
  unfold wfSchema
  infer_instance

instance (m : Message) : Decidable (OrderedMsg m) := by
  unfold OrderedMsg
  infer_instance

instance (sch : Schema) (m : Message) : Decidable (wellTyped sch m) := by
  unfold wellTyped OrderedMsg
  infer_instance

/-! ## The claims -/

/-- C1: for any schema without unsupported field kinds and any finite
sequence of well-typed messages, decoding the concatenated encodings
reproduces the messages field-for-field, bit-exact for floating-point fields
(the float bit patterns, NaN payloads and signed zeros included, are carried
as raw `Nat` patterns and restored exactly). -/
theorem C1_stream_roundtrip (sch : Schema) (ms : List Message)
    (hwf : wfSchema sch) (hty : ∀ m ∈ ms, wellTyped sch m) :
    ∃ es' ds', encodeStream (initEncoder sch) ms = .ok es' ∧
      decodeStream ms.length (initDecoder sch) es'.stream =
        some (ms, ds', []) := by
  obtain ⟨es', ds', tail, h1, h2, h3⟩ := stream_roundtrip sch hwf ms
    (initEncoder sch) (initDecoder sch) [] (coupled_init sch) hty
  refine ⟨es', ds', h1, ?_⟩
  rw [h2]
  simp only [initEncoder, List.nil_append]
  simpa using h3

def sampleSchema : Schema := [⟨1, .double⟩, ⟨2, .float⟩, ⟨3, .other⟩]

def sampleMessages : List Message :=
  [[(1, .double 9221120237041090561), (2, .float 1), (3, .other 7)],
   [(3, .other 9)],
   [(1, .double (2 ^ 63)), (2, .float 2143289345)]]

theorem C1_stream_roundtrip_witness :
    ∃ es' ds',
      encodeStream (initEncoder sampleSchema) sampleMessages = .ok es' ∧
      decodeStream sampleMessages.length (initDecoder sampleSchema)
        es'.stream = some (sampleMessages, ds', []) :=
  C1_stream_roundtrip sampleSchema sampleMessages (by decide) (by decide)

/-- C2: the claim says a message lacking a value for a declared numeric field
fails with a surfaced MissingField error.  The code does neither:
`TryGetFieldByNumber` yields the declared default for an absent field (no
error arises), and `Encode` discards `encodeTSZValues`' error return anyway,
so encoding an empty message against a float schema succeeds. -/
theorem C2_missing_field_encode_succeeds :
    tryGetFieldByNumber [⟨1, Kind.double⟩] [] 1 = .ok (.double 0) ∧
    ∃ es', Encode (initEncoder [⟨1, Kind.double⟩]) [] = .ok (es', []) :=
  ⟨rfl, _, rfl⟩

/-- C9: the claim says a non-float runtime value in a declared float field
fails with a surfaced TypeMismatch error.  The code instead hits the
unchecked interface conversion `iVal.(float32)` and panics: the model
propagates the Go panic, not an error value. -/
theorem C9_type_mismatch_panics :
    Encode (initEncoder [⟨1, Kind.double⟩]) [(1, .other 7)] =
      .error .interfaceConversion := rfl

/-- C7 (amended): after a successful `Encode(m)` the encoder's `lastEncoded`
is not the full message but the message with every schema-declared float
field cleared (the TSZ pass removes them in place before `lastEncoded` is
assigned). -/
theorem C7_lastEncoded_floats_cleared (sch : Schema) (es : EncoderState)
    (m : Message) (hwf : wfSchema sch) (hsch : es.schema = sch)
    (hmap : es.tszFields.map TszFieldState.fieldNum =
      (sch.filter fun fd => isFloatKind fd.kind).map FieldDesc.number)
    (hbound : ∀ st ∈ es.tszFields, st.prevFloatBits < 2 ^ 64)
    (hm : wellTyped sch m) :
    ∃ es', Encode es m = .ok (es', generalPart sch m) ∧
      es'.lastEncoded = some (generalPart sch m) :=
  ⟨_, encode_frame sch es m hwf hsch hmap hbound hm, rfl⟩

theorem C7_lastEncoded_floats_cleared_witness :
    ∃ es', Encode (initEncoder sampleSchema)
        [(1, Value.double 5), (3, Value.other 7)] = .ok (es',
          generalPart sampleSchema [(1, Value.double 5), (3, Value.other 7)]) ∧
      es'.lastEncoded = some (generalPart sampleSchema
        [(1, Value.double 5), (3, Value.other 7)]) :=
  C7_lastEncoded_floats_cleared sampleSchema (initEncoder sampleSchema)
    [(1, Value.double 5), (3, Value.other 7)]
    (by decide) (by decide) (by decide) (by decide) (by decide)

/-- C7 counterexample: encoding `[(1, double 5), (2, other 7)]` against a
schema declaring field 1 as a double leaves `lastEncoded` equal to
`[(2, other 7)]` — the float field is gone, so `lastEncoded` is not the full
input message. -/
theorem C7_lastEncoded_not_full :
    (Encode (initEncoder [⟨1, Kind.double⟩, ⟨2, Kind.other⟩])
        [(1, Value.double 5), (2, Value.other 7)]).map
      (fun r => r.1.lastEncoded) = .ok (some [(2, Value.other 7)]) ∧
    some [(2, Value.other 7)] ≠
      some [(1, Value.double 5), (2, Value.other 7)] := by
  refine ⟨rfl, by decide⟩

/-- C8: after every encode call each numeric field's `prevFloatBits` is the
bit-exact 64-bit pattern of that field's value in the message just
processed (`floatBitsDefault` widens a float32 value to float64 exactly and
encodes an absent field as its default). -/
theorem C8_prevFloatBits (sch : Schema) (es : EncoderState)
    (m : Message) (hwf : wfSchema sch) (hsch : es.schema = sch)
    (hmap : es.tszFields.map TszFieldState.fieldNum =
      (sch.filter fun fd => isFloatKind fd.kind).map FieldDesc.number)
    (hbound : ∀ st ∈ es.tszFields, st.prevFloatBits < 2 ^ 64)
    (hm : wellTyped sch m) :
    ∃ es', Encode es m = .ok (es', generalPart sch m) ∧
      es'.tszFields.map (fun st => (st.fieldNum, st.prevFloatBits)) =
        es.tszFields.map (fun st =>
          (st.fieldNum, floatBitsDefault sch m st.fieldNum)) := by
  refine ⟨_, encode_frame sch es m hwf hsch hmap hbound hm, ?_⟩
  dsimp only
  unfold tszFrame
  dsimp only
  rw [List.map_map]
  refine List.map_congr_left ?_
  intro st _
  show ((tszWriteStep es.hasWrittenFirstTSZ st
    (floatBitsDefault sch m st.fieldNum)).2.fieldNum,
    (tszWriteStep es.hasWrittenFirstTSZ st
      (floatBitsDefault sch m st.fieldNum)).2.prevFloatBits) = _
  rw [tszWriteStep_fieldNum, tszWriteStep_prevFloatBits]

theorem C8_prevFloatBits_witness :
    ∃ es', Encode (initEncoder sampleSchema)
        [(1, Value.double 5), (3, Value.other 7)] = .ok (es',
          generalPart sampleSchema [(1, Value.double 5), (3, Value.other 7)]) ∧
      es'.tszFields.map (fun st => (st.fieldNum, st.prevFloatBits)) =
        (initEncoder sampleSchema).tszFields.map (fun st =>
          (st.fieldNum, floatBitsDefault sampleSchema
            [(1, Value.double 5), (3, Value.other 7)] st.fieldNum)) :=
  C8_prevFloatBits sampleSchema (initEncoder sampleSchema)
    [(1, Value.double 5), (3, Value.other 7)]
    (by decide) (by decide) (by decide) (by decide) (by decide)

/-- C10: `Encode(m)` mutates the caller's message itself: the returned
message is the input with every schema-declared float (TSZ) field removed,
i.e. the general part of `m`; only that stripped message is what remains
with the caller. -/
theorem C10_input_mutated (sch : Schema) (es : EncoderState)
    (m : Message) (hwf : wfSchema sch) (hsch : es.schema = sch)
    (hmap : es.tszFields.map TszFieldState.fieldNum =
      (sch.filter fun fd => isFloatKind fd.kind).map FieldDesc.number)
    (hbound : ∀ st ∈ es.tszFields, st.prevFloatBits < 2 ^ 64)
    (hm : wellTyped sch m) :
    ∃ es', Encode es m =
      .ok (es', m.filter fun e => ! isTszNumber sch e.1) :=
  ⟨_, encode_frame sch es m hwf hsch hmap hbound hm⟩

theorem C10_input_mutated_witness :
    ∃ es', Encode (initEncoder sampleSchema)
        [(1, Value.double 5), (3, Value.other 7)] =
      .ok (es', ([(1, Value.double 5), (3, Value.other 7)] : Message).filter
        fun e => ! isTszNumber sampleSchema e.1) :=
  C10_input_mutated sampleSchema (initEncoder sampleSchema)
    [(1, Value.double 5), (3, Value.other 7)]
    (by decide) (by decide) (by decide) (by decide) (by decide)

/-- C3: on the first frame of a stream every numeric field is written as its
raw 64-bit pattern in schema order, each field's `prevFloatBits` and
`prevXOR` are both set to that pattern, and the general run carries a full
payload: a 1 control bit followed by the (empty) bitset and the whole
marshaled remainder of the message. -/
theorem C3_first_frame (sch : Schema) (m : Message)
    (hwf : wfSchema sch) (hm : wellTyped sch m) :
    Encode (initEncoder sch) m = .ok
      ({ stream := (tszFieldsOf sch).flatMap
            (fun st => bitsOfNat (floatBitsDefault sch m st.fieldNum) 64) ++
          (true :: (writeBitset [] ++
            writeVarIntBits (marshal (generalPart sch m)).length ++
            bytesBits (marshal (generalPart sch m)))),
          schema := sch,
          hasWrittenFirstTSZ := true,
          lastEncoded := some (generalPart sch m),
          tszFields := (tszFieldsOf sch).map fun st =>
            ⟨st.fieldNum, floatBitsDefault sch m st.fieldNum,
              floatBitsDefault sch m st.fieldNum⟩ },
        generalPart sch m) :=
  encode_frame sch (initEncoder sch) m hwf rfl (tszFieldsOf_map_fieldNum sch)
    (by
      intro st hst
      obtain ⟨fd, _, rfl⟩ := List.mem_map.mp hst
      norm_num) hm

theorem C3_first_frame_witness :
    Encode (initEncoder sampleSchema)
        [(1, Value.double 5), (3, Value.other 7)] = .ok
      ({ stream := (tszFieldsOf sampleSchema).flatMap
            (fun st => bitsOfNat (floatBitsDefault sampleSchema
              [(1, Value.double 5), (3, Value.other 7)] st.fieldNum) 64) ++
          (true :: (writeBitset [] ++
            writeVarIntBits (marshal (generalPart sampleSchema
              [(1, Value.double 5), (3, Value.other 7)])).length ++
            bytesBits (marshal (generalPart sampleSchema
              [(1, Value.double 5), (3, Value.other 7)])))),
          schema := sampleSchema,
          hasWrittenFirstTSZ := true,
          lastEncoded := some (generalPart sampleSchema
            [(1, Value.double 5), (3, Value.other 7)]),
          tszFields := (tszFieldsOf sampleSchema).map fun st =>
            ⟨st.fieldNum, floatBitsDefault sampleSchema
              [(1, Value.double 5), (3, Value.other 7)] st.fieldNum,
              floatBitsDefault sampleSchema
                [(1, Value.double 5), (3, Value.other 7)] st.fieldNum⟩ },
        generalPart sampleSchema [(1, Value.double 5), (3, Value.other 7)]) :=
  C3_first_frame sampleSchema [(1, Value.double 5), (3, Value.other 7)]
    (by decide) (by decide)

/-- C4: a non-first message identical to the previously encoded one (every
numeric field's bits unchanged, every general field equal) emits exactly one
0 control bit per numeric field plus one 0 control bit for the general run —
no bitmap and no payload bytes. -/
theorem C4_zero_delta (sch : Schema) (es : EncoderState) (m : Message)
    (hwf : wfSchema sch) (hm : wellTyped sch m)
    (hsch : es.schema = sch)
    (hflag : es.hasWrittenFirstTSZ = true)
    (hlast : es.lastEncoded = some (generalPart sch m))
    (hmap : es.tszFields.map TszFieldState.fieldNum =
      (sch.filter fun fd => isFloatKind fd.kind).map FieldDesc.number)
    (hprev : ∀ st ∈ es.tszFields,
      st.prevFloatBits = floatBitsDefault sch m st.fieldNum)
    (hbound : ∀ st ∈ es.tszFields, st.prevFloatBits < 2 ^ 64) :
    ∃ es', Encode es m = .ok (es', generalPart sch m) ∧
      es'.stream = es.stream ++
        List.replicate (es.tszFields.length + 1) false := by
  have h := encode_frame sch es m hwf hsch hmap hbound hm
  refine ⟨_, h, ?_⟩
  dsimp only
  rw [hflag, hlast]
  have hpr : protoRun sch (some (generalPart sch m)) (generalPart sch m) =
      [false] := by
    simp only [protoRun]
    rw [if_pos (protoChanged_self sch (generalPart sch m))]
  rw [tszFrame_zero sch m es.tszFields hprev, hpr, ← List.replicate_succ']

theorem C4_zero_delta_witness :
    ∃ es', Encode
        ⟨[], [⟨1, Kind.double⟩, ⟨2, Kind.other⟩], true,
          some [(2, Value.other 7)], [⟨1, 5, 5⟩]⟩
        [(1, Value.double 5), (2, Value.other 7)] =
      .ok (es', generalPart [⟨1, Kind.double⟩, ⟨2, Kind.other⟩]
        [(1, Value.double 5), (2, Value.other 7)]) ∧
      es'.stream = [] ++ List.replicate (1 + 1) false :=
  C4_zero_delta [⟨1, Kind.double⟩, ⟨2, Kind.other⟩]
    ⟨[], [⟨1, Kind.double⟩, ⟨2, Kind.other⟩], true,
      some [(2, Value.other 7)], [⟨1, 5, 5⟩]⟩
    [(1, Value.double 5), (2, Value.other 7)]
    (by decide) (by decide) (by decide) (by decide) (by decide) (by decide)
    (by decide) (by decide)

/-- C5 (amended): on every encode after the first message in which at least
one general field changed, the general run is the claimed layout — a 1
control bit, the bitset of the changed numbers (varint of max+1 then that
many bits), the varint byte length of the marshaled changed-fields message,
then those bytes.  On the first message the code instead writes the empty
bitset (varint 1 and a single clear bit) before the full payload. -/
theorem C5_general_run_layout (sch : Schema) (last g : Message)
    (es : EncoderState) (hsch : es.schema = sch)
    (hlast : es.lastEncoded = some last)
    (hnd : (sch.map FieldDesc.number).Nodup)
    (hch : protoChanged sch last g ≠ []) :
    encodeProtoValues es g = { es with stream := es.stream ++
      (true :: (writeBitset (protoChanged sch last g) ++
        writeVarIntBits (marshal (protoKept sch last g)).length ++
        bytesBits (marshal (protoKept sch last g)))) } := by
  obtain ⟨s0, sch0, f0, l0, t0⟩ := es
  dsimp only at hsch hlast
  subst hsch hlast
  rw [encodeProtoValues_spec _ g hnd]
  simp only [protoRun]
  rw [if_neg hch]

theorem C5_general_run_layout_witness :
    encodeProtoValues ⟨[], [⟨3, Kind.other⟩], true, some [], []⟩
        [(3, Value.other 7)] =
      { (⟨[], [⟨3, Kind.other⟩], true, some [], []⟩ : EncoderState) with
        stream := [] ++
          (true :: (writeBitset
              (protoChanged [⟨3, Kind.other⟩] [] [(3, Value.other 7)]) ++
            writeVarIntBits (marshal
              (protoKept [⟨3, Kind.other⟩] [] [(3, Value.other 7)])).length ++
            bytesBits (marshal
              (protoKept [⟨3, Kind.other⟩] [] [(3, Value.other 7)])))) } :=
  C5_general_run_layout [⟨3, Kind.other⟩] [] [(3, Value.other 7)]
    ⟨[], [⟨3, Kind.other⟩], true, some [], []⟩ rfl rfl (by decide) (by decide)

/-- C5 counterexample: on the first message (no previous message) the code
writes the empty bitset — varint 1 and a single clear bit — although general
field number 3 just changed from nothing; the claimed layout would write
varint 4 with bit 3 set, which is a different bit string. -/
theorem C5_first_frame_empty_bitmap :
    encodeProtoValues (initEncoder [⟨3, Kind.other⟩]) [(3, Value.other 7)] =
      { initEncoder [⟨3, Kind.other⟩] with stream :=
          true :: (writeBitset [] ++
            writeVarIntBits (marshal [(3, Value.other 7)]).length ++
            bytesBits (marshal [(3, Value.other 7)])) } ∧
    writeBitset [] = writeVarIntBits 1 ++ [false] ∧
    writeBitset [3] = writeVarIntBits 4 ++ [false, false, false, true] ∧
    writeBitset [] ≠ writeBitset [3] := by
  refine ⟨by decide, rfl, by decide, by decide⟩

/-- C6: when exactly one general field differs between consecutive messages,
the changed list is exactly that field's number, the clone that gets
marshaled holds exactly that field's new value and nothing else (so the
payload unmarshals to just that field), and the bitmap has exactly one set
bit, at that field's position. -/
theorem C6_single_change (sch : Schema) (last g : Message) (fd0 : FieldDesc)
    (hwf : wfSchema sch) (hg : wellTyped sch g)
    (hmem : fd0 ∈ sch)
    (hdiff : fieldsEqual (getFieldByNumber sch g fd0.number)
      (getFieldByNumber sch last fd0.number) = false)
    (hsame : ∀ fd ∈ sch, fd.number ≠ fd0.number →
      fieldsEqual (getFieldByNumber sch g fd.number)
        (getFieldByNumber sch last fd.number) = true) :
    protoChanged sch last g = [fd0.number] ∧
    protoKept sch last g =
      (match lookupField g fd0.number with
       | some v => [(fd0.number, v)]
       | none => []) ∧
    unmarshal sch (marshal (protoKept sch last g)) =
      some (protoKept sch last g) ∧
    writeBitset [fd0.number] = writeVarIntBits (fd0.number + 1) ++
      (List.replicate fd0.number false ++ [true]) := by
  have hnd := hwf.1
  have hfind0 : findField sch fd0.number = some fd0 :=
    findField_of_mem sch fd0 hnd hmem
  have hnum_ne : ∀ fd ∈ sch, fd ≠ fd0 → fd.number ≠ fd0.number := by
    intro fd hfd hne heq
    exact hne (findField_unique sch fd0.number fd0 fd hnd hfind0 hfd heq)
  have hch : protoChanged sch last g = [fd0.number] := by
    unfold protoChanged
    rw [filter_eq_singleton _ fd0 sch hnd hmem (by simp [hdiff])
      (fun fd hfd hne => by simp [hsame fd hfd (hnum_ne fd hfd hne)])]
    rfl
  refine ⟨hch, ?_, ?_, ?_⟩
  · unfold protoKept
    rw [List.filter_congr (fun e he => ?_), filter_key_single fd0.number g
      hg.1]
    -- the kept predicate agrees with (e.1 = fd0.number) on entries of g
    obtain ⟨fd', hfd', hnum', _, _⟩ := hg.2 e he
    by_cases hek : e.1 = fd0.number
    · rw [hek]
      rw [contains_filter_map_number sch _ fd0.number fd0 hnd hfind0, hdiff]
      simp
    · have hfind' : findField sch e.1 = some fd' := by
        rw [← hnum']
        exact findField_of_mem sch fd' hnd hfd'
      rw [contains_filter_map_number sch _ e.1 fd' hnd hfind',
        hsame fd' hfd' (by rw [hnum']; exact hek)]
      simp [hek]
  · refine unmarshal_marshal sch hnd hwf.2 _ ?_
    intro e he
    obtain ⟨fd', h1, h2, h3, _⟩ := hg.2 e (List.mem_of_mem_filter he)
    exact ⟨fd', h1, h2, h3⟩
  · unfold writeBitset
    rw [foldl_max_single]
    dsimp only
    rw [range_map_contains_single]

theorem C6_single_change_witness :
    protoChanged [⟨1, Kind.double⟩, ⟨2, Kind.other⟩, ⟨4, Kind.other⟩]
        [(2, Value.other 1)] [(2, Value.other 1), (4, Value.other 9)] =
      [(4 : Nat)] ∧
    protoKept [⟨1, Kind.double⟩, ⟨2, Kind.other⟩, ⟨4, Kind.other⟩]
        [(2, Value.other 1)] [(2, Value.other 1), (4, Value.other 9)] =
      (match lookupField [(2, Value.other 1), (4, Value.other 9)] 4 with
       | some v => [(4, v)]
       | none => []) ∧
    unmarshal [⟨1, Kind.double⟩, ⟨2, Kind.other⟩, ⟨4, Kind.other⟩]
        (marshal (protoKept [⟨1, Kind.double⟩, ⟨2, Kind.other⟩,
          ⟨4, Kind.other⟩] [(2, Value.other 1)]
          [(2, Value.other 1), (4, Value.other 9)])) =
      some (protoKept [⟨1, Kind.double⟩, ⟨2, Kind.other⟩, ⟨4, Kind.other⟩]
        [(2, Value.other 1)] [(2, Value.other 1), (4, Value.other 9)]) ∧
    writeBitset [4] = writeVarIntBits (4 + 1) ++
      (List.replicate 4 false ++ [true]) :=
  C6_single_change [⟨1, Kind.double⟩, ⟨2, Kind.other⟩, ⟨4, Kind.other⟩]
    [(2, Value.other 1)] [(2, Value.other 1), (4, Value.other 9)]
    ⟨4, Kind.other⟩ (by decide) (by decide) (by decide) (by decide)
    (by decide)

end M3Proto
